import Mathlib

/-!
A shallow embedding of the workflow engine core: the data model
(task definitions, retry configuration, results), the retry/backoff
utilities, the retry handler loop, the task state tracker, the
structural validator with its depth-first cycle detection, and the
wave-based scheduling loop, together with theorems about them.

Modelling conventions:
* Asynchronous task handlers and timing are abstracted by an oracle
  mapping (task id, attempt index) to the attempt's outcome; a timeout
  is one kind of failing outcome (its message contains "timed out").
* Wall-clock fields (timestamps, durations, delays actually slept) are
  elided; the computed backoff delay is modelled exactly as a rational.
* JavaScript Sets become `Finset String`, Maps become association
  lists with replace-on-set semantics, thrown exceptions become
  `Except`/`Option` error values.
* `Math.random()` is modelled as an explicit parameter in [0, 1).
* Quote characters inside error message strings are elided.
-/

namespace WorkflowSpec

/-- Retry backoff strategies supported by the engine
(`retry.interface.ts`). -/
inductive RetryStrategy
  | exponential
  | linear
  | jitter
deriving DecidableEq, Repr

/-- One attempt's outcome, as observed by the retry handler: either the
handler's resolved data or a thrown/rejected error message (a timeout
surfaces here as an error whose message contains "timed out"). -/
inductive Outcome
  | ok (data : String)
  | err (msg : String)
deriving DecidableEq, Repr

/-- Behaviour of all task handlers: for a task id and a 0-based attempt
index, the outcome of that attempt.  This replaces the `handler` field
of `TaskDefinition` (an async closure) in the shallow embedding. -/
abbrev Oracle := String → Nat → Outcome

/-- Task definition (`task.interface.ts`); the async `handler` field is
replaced by the oracle, and the documentation-only fields
(`description`, `workflowId`) are elided. -/
structure TaskDefinition where
  id : String
  dependencies : Option (List String) := none
  retries : Option Int := none
  timeoutMs : Option Int := none
  retryStrategy : Option RetryStrategy := none
  retryableErrors : Option (List String) := none
deriving Repr

/-- Resolved retry configuration (`retry.interface.ts`). -/
structure RetryConfig where
  maxRetries : Int
  timeoutMs : Int
  exponentialBackoff : Bool
  baseDelayMs : ℚ
  strategy : Option RetryStrategy
  maxDelayMs : Option ℚ
deriving Repr

/-- One record per attempt (`retry.interface.ts`), timing elided. -/
structure RetryAttempt where
  success : Bool
  errorMessage : Option String := none
deriving DecidableEq, Repr

/-- Terminal outcome of a task (`task.interface.ts`), timing elided. -/
structure TaskResult where
  id : String
  success : Bool
  data : Option String := none
  error : Option String := none
  retryCount : Nat
deriving DecidableEq, Repr

/-- Result of `executeWithRetry` (`retry.interface.ts`). -/
structure RetryResult where
  success : Bool
  result : TaskResult
  error : Option String
  retryCount : Nat
  attempts : List RetryAttempt
deriving DecidableEq, Repr

/-! ## Retry/backoff utilities (`retry-utils.ts`) -/

/-- Built-in retryable error substrings
(`workflow.constants.ts`, `DEFAULT_RETRYABLE_ERRORS`). -/
def DEFAULT_RETRYABLE_ERRORS : List String :=
  ["timeout", "timed out", "network", "connection", "temporary",
   "rate limit", "server error"]

/-- JavaScript `toLowerCase` (over the character list; the messages in
play are ASCII). -/
def strToLower (s : String) : String :=
  ⟨s.data.map Char.toLower⟩

/-- Does the character list start with `needle`? -/
def listPrefix : List Char → List Char → Bool
  | [], _ => true
  | _ :: _, [] => false
  | a :: as, b :: bs => a == b && listPrefix as bs

/-- Does the character list contain `needle` as a contiguous
sublist? -/
def containsAux (needle : List Char) : List Char → Bool
  | [] => listPrefix needle []
  | c :: rest => listPrefix needle (c :: rest) || containsAux needle rest

/-- JavaScript `hay.includes(needle)`: substring containment. -/
def includes (hay needle : String) : Bool :=
  containsAux needle.data hay.data

/-- `shouldRetry` from `retry-utils.ts`: case-insensitive substring
match of the error message against the union of the built-in set and
the task-specific set.  The `Error` argument is represented by its
message. -/
def shouldRetry (errorMessage : String)
    (retryableErrors : List String := []) : Bool :=
  let allRetryableErrors := DEFAULT_RETRYABLE_ERRORS ++ retryableErrors
  let m := strToLower errorMessage
  allRetryableErrors.any (fun r => includes m (strToLower r))

/-- `calculateRetryDelay` from `retry-utils.ts`.  `rand` stands for the
`Math.random()` sample used by the jitter strategy. -/
def calculateRetryDelay (retryCount : Nat) (config : RetryConfig)
    (rand : ℚ) : ℚ :=
  let baseDelayMs := config.baseDelayMs
  let strategy := config.strategy.getD .exponential
  let maxDelayMs := (config.maxDelayMs).getD 30000
  let d : ℚ :=
    match strategy with
    | .exponential => 2 ^ (retryCount - 1) * baseDelayMs
    | .linear => retryCount * baseDelayMs
    | .jitter =>
        let exponentialDelay := 2 ^ (retryCount - 1) * baseDelayMs
        let jitter := rand * (1 / 10) * exponentialDelay
        exponentialDelay + jitter
  min d maxDelayMs

/-- `createRetryConfig` from `retry-utils.ts`: resolves task settings
against the system defaults. -/
def createRetryConfig (task : TaskDefinition) : RetryConfig :=
  { maxRetries := task.retries.getD 0
    timeoutMs := task.timeoutMs.getD 2000
    exponentialBackoff := true
    baseDelayMs := 100
    strategy := some (task.retryStrategy.getD .exponential)
    maxDelayMs := some 30000 }

/-- `validateRetryConfig` from `retry-utils.ts`; `some msg` models the
thrown configuration error. -/
def validateRetryConfig (config : RetryConfig) : Option String :=
  if config.maxRetries < 0 then
    some "maxRetries must be a non-negative integer"
  else if config.timeoutMs ≤ 0 then
    some "timeoutMs must be a positive integer"
  else if config.baseDelayMs ≤ 0 then
    some "baseDelayMs must be a positive integer"
  else
    match config.maxDelayMs with
    | some m => if m ≤ 0 then some "maxDelayMs must be a positive integer" else none
    | none => none

/-! ## Retry handler (`retry-handler.service.ts`) -/

/-- The `while (retryCount <= config.maxRetries)` loop of
`executeWithRetry`.  `retryCount` counts failures so far and doubles as
the 0-based index of the next attempt; `attempts` is the accumulated
attempt history.  Entered with `retryCount = 0`, so the head test of
the `while` loop is vacuous on naturals (after validation
`maxRetries ≥ 0`). -/
def retryLoop (oracle : Oracle) (task : TaskDefinition) (maxRetries : Nat)
    (retryCount : Nat) (attempts : List RetryAttempt) : RetryResult :=
  match oracle task.id retryCount with
  | .ok d =>
      { success := true
        result := { id := task.id, success := true, data := some d
                    retryCount := retryCount }
        error := none
        retryCount := retryCount
        attempts := attempts ++ [{ success := true }] }
  | .err m =>
      let retryCount' := retryCount + 1
      let attempts' := attempts ++ [{ success := false, errorMessage := some m }]
      if _h : retryCount' ≤ maxRetries ∧
          shouldRetry m (task.retryableErrors.getD []) = true then
        retryLoop oracle task maxRetries retryCount' attempts'
      else
        { success := false
          result := { id := task.id, success := false, error := some m
                      retryCount := retryCount' - 1 }
          error := some m
          retryCount := retryCount' - 1
          attempts := attempts' }
termination_by maxRetries + 1 - retryCount
decreasing_by omega

/-- `executeWithRetry`: resolve and validate the configuration (a
thrown configuration error is `Except.error`), then run the retry
loop. -/
def executeWithRetry (oracle : Oracle) (task : TaskDefinition) :
    Except String RetryResult :=
  let config := createRetryConfig task
  match validateRetryConfig config with
  | some msg => .error msg
  | none => .ok (retryLoop oracle task config.maxRetries.toNat 0 [])

/-! ## Task state tracker (`task-state-tracker.ts`) -/

/-- The tracker's two sets of task ids. -/
structure TaskStateTracker where
  completed : Finset String
  inProgress : Finset String
deriving DecidableEq

/-- Fresh tracker: both sets empty. -/
def TaskStateTracker.empty : TaskStateTracker := ⟨∅, ∅⟩

/-- `markInProgress`: adds to the in-progress set. -/
def TaskStateTracker.markInProgress (t : TaskStateTracker) (taskId : String) :
    TaskStateTracker :=
  { t with inProgress := insert taskId t.inProgress }

/-- `markCompleted`: removes from in-progress, adds to completed. -/
def TaskStateTracker.markCompleted (t : TaskStateTracker) (taskId : String) :
    TaskStateTracker :=
  { completed := insert taskId t.completed
    inProgress := t.inProgress.erase taskId }

/-- `isCompleted`. -/
def TaskStateTracker.isCompleted (t : TaskStateTracker) (taskId : String) : Bool :=
  decide (taskId ∈ t.completed)

/-- `isInProgress`. -/
def TaskStateTracker.isInProgress (t : TaskStateTracker) (taskId : String) : Bool :=
  decide (taskId ∈ t.inProgress)

/-- `isReady`: neither completed nor in progress, and every dependency
completed (a task without a `dependencies` field is ready). -/
def TaskStateTracker.isReady (t : TaskStateTracker) (task : TaskDefinition) : Bool :=
  if t.isCompleted task.id || t.isInProgress task.id then false
  else
    match task.dependencies with
    | none => true
    | some deps => deps.all (fun dep => decide (dep ∈ t.completed))

/-- `getPending`: the tasks currently ready. -/
def TaskStateTracker.getPending (t : TaskStateTracker)
    (workflow : List TaskDefinition) : List TaskDefinition :=
  workflow.filter (fun task => t.isReady task)

/-- `getRemaining`: the tasks not yet completed. -/
def TaskStateTracker.getRemaining (t : TaskStateTracker)
    (workflow : List TaskDefinition) : List TaskDefinition :=
  workflow.filter (fun task => !(t.isCompleted task.id))

/-- `isAllCompleted`: completed-set size equals the expected total. -/
def TaskStateTracker.isAllCompleted (t : TaskStateTracker) (total : Nat) : Bool :=
  t.completed.card == total

/-! ## Validator (`WorkflowValidatorService`, `workflow-validator.service.ts`) -/

/-- The ids of a task list, in order. -/
def taskIds (workflow : List TaskDefinition) : List String :=
  workflow.map (·.id)

/-- `validateTaskIds`: the set of ids must be as large as the list
(JavaScript `new Set(ids).size !== workflow.length`). -/
def validateTaskIds (workflow : List TaskDefinition) : Option String :=
  if (taskIds workflow).dedup.length ≠ workflow.length then
    some "Duplicate task IDs found in workflow"
  else none

/-- `validateDependencies`: the first dependency id (in task order,
then dependency order) that names no task yields an error. -/
def validateDependencies (workflow : List TaskDefinition) : Option String :=
  workflow.findSome? (fun task =>
    (task.dependencies.getD []).findSome? (fun depId =>
      if depId ∈ taskIds workflow then none
      else some ("Task " ++ task.id ++ " depends on non-existent task " ++ depId)))

/-- Dependency ids of the task found by
`workflow.find((t) => t.id === taskId)`, or `[]` when absent — exactly
how `hasCircularDependency` looks up successors. -/
def wdeps (workflow : List TaskDefinition) (taskId : String) : List String :=
  match workflow.find? (fun t => t.id == taskId) with
  | some t => t.dependencies.getD []
  | none => []

/-- The `for (const depId of task.dependencies)` loop inside
`hasCircularDependency`, parametrised by the recursive call `rec`.
State: `v` is the visited set, `s` the recursion stack (both lists used
as sets).  Returns `none` on fuel exhaustion inside `rec`, otherwise
`some (found, visited')`; the recursion stack is restored by the source
on every `false` return, so it is threaded unchanged. -/
def depsLoop
    (rec : String → List String → List String → Option (Bool × List String)) :
    List String → List String → List String → Option (Bool × List String)
  | [], v, _ => some (false, v)
  | d :: ds, v, s =>
      if d ∈ v then
        if d ∈ s then some (true, v) else depsLoop rec ds v s
      else
        match rec d v s with
        | none => none
        | some (true, v1) => some (true, v1)
        | some (false, v1) => depsLoop rec ds v1 s

/-- `hasCircularDependency(taskId, workflow, visited, recursionStack)`:
mark the id visited and on the stack, then scan its dependencies.  The
`Nat` argument is recursion fuel (a model artifact; shown sufficient
below). -/
def dfsAux (workflow : List TaskDefinition) :
    Nat → String → List String → List String → Option (Bool × List String)
  | 0, _, _, _ => none
  | fuel + 1, taskId, v, s =>
      depsLoop (dfsAux workflow fuel) (wdeps workflow taskId)
        (taskId :: v) (taskId :: s)

/-- The `for (const task of workflow)` loop of
`validateCircularDependencies`, threading the shared visited set. -/
def vcdGo (workflow : List TaskDefinition) :
    List TaskDefinition → List String → Option String
  | [], _ => none
  | task :: ts, v =>
      if task.id ∈ v then vcdGo workflow ts v
      else
        match dfsAux workflow (workflow.length + 1) task.id v [] with
        | none => some "dfs fuel exhausted"
        | some (true, _) =>
            some ("Circular dependency detected involving task " ++ task.id)
        | some (false, v1) => vcdGo workflow ts v1

/-- `validateCircularDependencies`. -/
def validateCircularDependencies (workflow : List TaskDefinition) : Option String :=
  vcdGo workflow workflow []

/-- `validateWorkflow`: uniqueness, referential integrity, acyclicity,
in that order; `some msg` models the first thrown validation error. -/
def validateWorkflow (workflow : List TaskDefinition) : Option String :=
  match validateTaskIds workflow with
  | some e => some e
  | none =>
      match validateDependencies workflow with
      | some e => some e
      | none => validateCircularDependencies workflow

/-! ## Specification-side dependency relation -/

/-- The dependency relation of a task list as the spec describes it:
`DepRel w a b` holds when some task with id `a` lists `b` as a
dependency. -/
def DepRel (workflow : List TaskDefinition) (a b : String) : Prop :=
  ∃ t, t ∈ workflow ∧ t.id = a ∧ b ∈ t.dependencies.getD []

/-- The graph the DFS actually walks (successors via `find?`). -/
def Edge (workflow : List TaskDefinition) (a b : String) : Prop :=
  b ∈ wdeps workflow a

/-- The dependency relation contains a cycle (a nonempty path from some
id back to itself); a self-dependency is the one-step case. -/
def HasCycle (workflow : List TaskDefinition) : Prop :=
  ∃ a, Relation.TransGen (DepRel workflow) a a

/-- Cycle in the `find?`-based graph walked by the DFS. -/
def HasEdgeCycle (workflow : List TaskDefinition) : Prop :=
  ∃ a, Relation.TransGen (Edge workflow) a a

/-- Every dependency id references an existing task. -/
def DepsExist (workflow : List TaskDefinition) : Prop :=
  ∀ t ∈ workflow, ∀ d ∈ t.dependencies.getD [], d ∈ taskIds workflow

/-- DFS invariant: every finished ("black") id — visited but not on the
recursion stack — has all its successors finished as well. -/
def Closed (workflow : List TaskDefinition) (v s : List String) : Prop :=
  ∀ a ∈ v, a ∉ s → ∀ b, Edge workflow a b → b ∈ v ∧ b ∉ s

/-- DFS invariant: no finished id lies on a cycle. -/
def NoCyc (workflow : List TaskDefinition) (v s : List String) : Prop :=
  ∀ a ∈ v, a ∉ s → ¬ Relation.TransGen (Edge workflow) a a

/-! ## Scheduling engine (`workflow-engine.service.ts`) -/

/-- Errors observable in a `WorkflowResult`'s error list, separated by
provenance: a validation error thrown by `validateWorkflow`, a
configuration error thrown by `validateRetryConfig`, the defensive
deadlock error of the scheduling loop, and a terminal task failure
(appended, not thrown). -/
inductive WError
  | validation (msg : String)
  | config (msg : String)
  | deadlock (remaining : List String)
  | task (msg : String)
deriving DecidableEq, Repr

/-- Proof-only record of a `TASK_STARTED` emission: which task was
dispatched, with the tracker's completed set and the result-map keys at
that moment (a history variable; it does not influence execution). -/
structure DispatchEntry where
  taskId : String
  completedAtDispatch : Finset String
  resultKeysAtDispatch : List String
deriving DecidableEq

/-- The engine's accumulators: the shared result map (association list
with replace-on-set semantics), the shared error list, the state
tracker, and the dispatch log (history variable). -/
structure EngineState where
  results : List (String × TaskResult)
  errors : List WError
  tracker : TaskStateTracker
  log : List DispatchEntry
deriving DecidableEq

/-- JavaScript `Map.set`: replace the value when the key is present,
otherwise append the binding. -/
def mapSet (m : List (String × TaskResult)) (k : String) (v : TaskResult) :
    List (String × TaskResult) :=
  if m.any (fun p => p.1 == k) then
    m.map (fun p => if p.1 == k then (k, v) else p)
  else m ++ [(k, v)]

/-- Initial engine state. -/
def initState : EngineState :=
  { results := [], errors := [], tracker := TaskStateTracker.empty, log := [] }

/-- `executeTask`: mark in-progress, delegate to the retry handler, on
a normal outcome append any task error, store the result, and mark
completed.  A thrown configuration error escapes as `Except.error`
carrying the state at that point (the shared accumulators the engine's
`catch` can still see). -/
def executeTask (oracle : Oracle) (task : TaskDefinition) (st : EngineState) :
    Except (WError × EngineState) EngineState :=
  let tracker1 := st.tracker.markInProgress task.id
  let entry : DispatchEntry :=
    { taskId := task.id
      completedAtDispatch := st.tracker.completed
      resultKeysAtDispatch := st.results.map Prod.fst }
  let st1 : EngineState := { st with tracker := tracker1, log := st.log ++ [entry] }
  match executeWithRetry oracle task with
  | .error msg => .error (.config msg, st1)
  | .ok retryResult =>
      let errors1 :=
        if retryResult.success then st1.errors
        else st1.errors ++ [WError.task (retryResult.error.getD "")]
      let results1 := mapSet st1.results task.id retryResult.result
      let tracker2 := tracker1.markCompleted task.id
      .ok { results := results1, errors := errors1, tracker := tracker2
            log := st1.log }

/-- One wave: run every ready task; the source awaits `Promise.all`, so
a thrown (configuration) error rejects the whole wave.  Sequentialised
here; see the counterexample discussion for what remains determinate. -/
def execWave (oracle : Oracle) :
    List TaskDefinition → EngineState → Except (WError × EngineState) EngineState
  | [], st => .ok st
  | task :: ts, st =>
      match executeTask oracle task st with
      | .error e => .error e
      | .ok st1 => execWave oracle ts st1

/-- The `while (!tracker.isAllCompleted(...))` loop of `executeTasks`,
with fuel (a model artifact; one unit per wave, shown sufficient
below).  `none` is fuel exhaustion. -/
def execLoop (oracle : Oracle) (workflow : List TaskDefinition) :
    Nat → EngineState → Option (Except (WError × EngineState) EngineState)
  | 0, _ => none
  | fuel + 1, st =>
      if st.tracker.isAllCompleted workflow.length then some (.ok st)
      else
        let readyTasks := st.tracker.getPending workflow
        if readyTasks.isEmpty then
          let remaining := st.tracker.getRemaining workflow
          if remaining.length > 0 then
            some (.error (.deadlock (taskIds remaining), st))
          else some (.ok st)
        else
          match execWave oracle readyTasks st with
          | .error e => some (.error e)
          | .ok st1 => execLoop oracle workflow fuel st1

/-- Terminal outcome of a run (`task.interface.ts`), timing elided. -/
structure WorkflowResult where
  success : Bool
  results : List (String × TaskResult)
  errors : List WError
deriving DecidableEq

/-- `run`: validate, then execute; both a validation error and an error
escaping the loop are caught and returned as a single-error result with
the accumulators as they stood. -/
def run (oracle : Oracle) (workflow : List TaskDefinition) (fuel : Nat) :
    Option WorkflowResult :=
  match validateWorkflow workflow with
  | some msg =>
      some { success := false, results := [], errors := [.validation msg] }
  | none =>
      match execLoop oracle workflow fuel initState with
      | none => none
      | some (.error (e, st)) =>
          some { success := false, results := st.results, errors := [e] }
      | some (.ok st) =>
          some { success := st.errors.isEmpty, results := st.results
                 errors := st.errors }

/-! ## Tracker operation sequences (for the disjointness claim) -/

/-- A tracker mutation. -/
inductive TrackerOp
  | markInProgress (taskId : String)
  | markCompleted (taskId : String)
deriving DecidableEq, Repr

/-- Apply one tracker operation. -/
def applyOp (t : TaskStateTracker) : TrackerOp → TaskStateTracker
  | .markInProgress taskId => t.markInProgress taskId
  | .markCompleted taskId => t.markCompleted taskId

/-- Apply a sequence of tracker operations to the empty tracker. -/
def applyOps (ops : List TrackerOp) : TaskStateTracker :=
  ops.foldl applyOp TaskStateTracker.empty

/-- A sequence is orderly when `markInProgress` is only ever applied to
an id that is not already completed at that point (which is how the
engine uses the tracker: it dispatches only `isReady` tasks). -/
def okSeq : TaskStateTracker → List TrackerOp → Bool
  | _, [] => true
  | t, op :: ops =>
      (match op with
       | .markInProgress taskId => decide (taskId ∉ t.completed)
       | .markCompleted _ => true)
      && okSeq (applyOp t op) ops

/-! ## Engine predicates used by the theorems -/

/-- Every task's resolved retry configuration passes validation. -/
def ValidConfigs (workflow : List TaskDefinition) : Prop :=
  ∀ t ∈ workflow, validateRetryConfig (createRetryConfig t) = none

/-- A dispatch-log entry is good when the dispatched task's
dependencies were all completed at dispatch time, and the completed set
at that moment was exactly the set of task ids with a recorded
result — i.e. every completed dependency already had a terminal
`TaskResult`. -/
def GoodEntry (workflow : List TaskDefinition) (e : DispatchEntry) : Prop :=
  (∀ t ∈ workflow, t.id = e.taskId →
    ∀ d ∈ t.dependencies.getD [], d ∈ e.completedAtDispatch) ∧
  e.completedAtDispatch = e.resultKeysAtDispatch.toFinset

/-- Invariant of the scheduling loop between waves. -/
def EngineInv (workflow : List TaskDefinition) (st : EngineState) : Prop :=
  st.tracker.inProgress = ∅ ∧
  st.tracker.completed = (st.results.map Prod.fst).toFinset ∧
  (st.results.map Prod.fst).Nodup ∧
  (∀ p ∈ st.results, ∃ t ∈ workflow, t.id = p.1 ∧
    validateRetryConfig (createRetryConfig t) = none) ∧
  (∀ e ∈ st.errors, ∃ m, e = WError.task m) ∧
  (∀ e ∈ st.log, GoodEntry workflow e)

/-! ## Retry-loop lemmas -/

/-- Branch equation: the attempt succeeds. -/
theorem retryLoop_ok (oracle : Oracle) (task : TaskDefinition)
    (maxRetries rc : Nat) (atts : List RetryAttempt) (d : String)
    (h : oracle task.id rc = .ok d) :
    retryLoop oracle task maxRetries rc atts =
      { success := true
        result := { id := task.id, success := true, data := some d
                    retryCount := rc }
        error := none
        retryCount := rc
        attempts := atts ++ [{ success := true }] } := by
  rw [retryLoop, h]

/-- Branch equation: the attempt fails and the loop retries. -/
theorem retryLoop_err_continue (oracle : Oracle) (task : TaskDefinition)
    (maxRetries rc : Nat) (atts : List RetryAttempt) (m : String)
    (h : oracle task.id rc = .err m)
    (hc : rc + 1 ≤ maxRetries ∧
      shouldRetry m (task.retryableErrors.getD []) = true) :
    retryLoop oracle task maxRetries rc atts =
      retryLoop oracle task maxRetries (rc + 1)
        (atts ++ [{ success := false, errorMessage := some m }]) := by
  rw [retryLoop, h]
  exact dif_pos hc

/-- Branch equation: the attempt fails and the loop exits. -/
theorem retryLoop_err_stop (oracle : Oracle) (task : TaskDefinition)
    (maxRetries rc : Nat) (atts : List RetryAttempt) (m : String)
    (h : oracle task.id rc = .err m)
    (hc : ¬(rc + 1 ≤ maxRetries ∧
      shouldRetry m (task.retryableErrors.getD []) = true)) :
    retryLoop oracle task maxRetries rc atts =
      { success := false
        result := { id := task.id, success := false, error := some m
                    retryCount := rc }
        error := some m
        retryCount := rc
        attempts := atts ++ [{ success := false, errorMessage := some m }] } := by
  rw [retryLoop, h]
  exact dif_neg hc

/-- Unfolding `executeWithRetry` when the resolved configuration is
invalid: the thrown configuration error escapes. -/
theorem executeWithRetry_invalid (oracle : Oracle) (task : TaskDefinition)
    (msg : String)
    (hv : validateRetryConfig (createRetryConfig task) = some msg) :
    executeWithRetry oracle task = .error msg := by
  simp only [executeWithRetry]
  rw [hv]

/-- Unfolding `executeWithRetry` when the resolved configuration is
valid: the retry loop runs with the resolved retry bound. -/
theorem executeWithRetry_valid (oracle : Oracle) (task : TaskDefinition)
    (hv : validateRetryConfig (createRetryConfig task) = none) :
    executeWithRetry oracle task =
      .ok (retryLoop oracle task (task.retries.getD 0).toNat 0 []) := by
  simp only [executeWithRetry]
  rw [hv]
  rfl

/-- Attempt-history accounting for the retry loop: entered with one
history entry per failure so far, it returns one history entry per
handler invocation, i.e. `retryCount + 1` entries. -/
theorem retryLoop_attempts (oracle : Oracle) (task : TaskDefinition)
    (maxRetries : Nat) :
    ∀ retryCount attempts, attempts.length = retryCount →
      (retryLoop oracle task maxRetries retryCount attempts).attempts.length =
        (retryLoop oracle task maxRetries retryCount attempts).retryCount + 1 := by
  intro rc atts
  induction rc, atts using retryLoop.induct oracle task maxRetries with
  | case1 rc atts d hd =>
      intro h
      rw [retryLoop_ok oracle task maxRetries rc atts d hd]
      simp [h]
  | case2 rc atts m hm =>
      rename_i rc' atts' hcond ih
      intro h
      rw [retryLoop_err_continue oracle task maxRetries rc atts m hm hcond]
      exact ih (by simp [atts', h])
  | case3 rc atts m hm =>
      rename_i rc' hcond
      intro h
      rw [retryLoop_err_stop oracle task maxRetries rc atts m hm hcond]
      simp [h]

/-- If the first `k` attempts fail retryably and attempt `k` succeeds
within the retry budget, the loop reports success with `retryCount = k`. -/
theorem retryLoop_success_at (oracle : Oracle) (task : TaskDefinition)
    (maxRetries k : Nat) (d : String) (hk : k ≤ maxRetries)
    (hok : oracle task.id k = .ok d)
    (hfail : ∀ i, i < k → ∃ m, oracle task.id i = .err m ∧
      shouldRetry m (task.retryableErrors.getD []) = true) :
    ∀ fuel rc atts, rc ≤ k → k - rc ≤ fuel →
      (retryLoop oracle task maxRetries rc atts).success = true ∧
      (retryLoop oracle task maxRetries rc atts).retryCount = k := by
  intro fuel
  induction fuel with
  | zero =>
      intro rc atts hrc hf
      have : rc = k := by omega
      subst this
      rw [retryLoop_ok oracle task maxRetries rc atts d hok]
      exact ⟨rfl, rfl⟩
  | succ n ih =>
      intro rc atts hrc hf
      rcases eq_or_lt_of_le hrc with heq | hlt
      · subst heq
        rw [retryLoop_ok oracle task maxRetries rc atts d hok]
        exact ⟨rfl, rfl⟩
      · obtain ⟨m, hm, hr⟩ := hfail rc hlt
        rw [retryLoop_err_continue oracle task maxRetries rc atts m hm
          ⟨by omega, hr⟩]
        exact ih (rc + 1) _ (by omega) (by omega)

/-- If every attempt fails, the loop reports failure, and every entry
of a failure-only attempt history stays a failure. -/
theorem retryLoop_all_fail (oracle : Oracle) (task : TaskDefinition)
    (maxRetries : Nat)
    (hfail : ∀ i, ∃ m, oracle task.id i = .err m) :
    ∀ retryCount attempts,
      (retryLoop oracle task maxRetries retryCount attempts).success = false ∧
      ((∀ a ∈ attempts, a.success = false) →
        ∀ a ∈ (retryLoop oracle task maxRetries retryCount attempts).attempts,
          a.success = false) := by
  intro rc atts
  induction rc, atts using retryLoop.induct oracle task maxRetries with
  | case1 rc atts d hd =>
      obtain ⟨m, hm⟩ := hfail rc
      rw [hd] at hm
      cases hm
  | case2 rc atts m hm =>
      rename_i rc' atts' hcond ih
      rw [retryLoop_err_continue oracle task maxRetries rc atts m hm hcond]
      refine ⟨ih.1, fun hall => ih.2 ?_⟩
      intro a ha
      rcases List.mem_append.mp ha with h | h
      · exact hall a h
      · simp at h
        simp [h]
  | case3 rc atts m hm =>
      rename_i rc' hcond
      rw [retryLoop_err_stop oracle task maxRetries rc atts m hm hcond]
      refine ⟨rfl, fun hall => ?_⟩
      intro a ha
      rcases List.mem_append.mp ha with h | h
      · exact hall a h
      · simp at h
        simp [h]

/-- C6.  For every task and valid retry configuration: if the handler
fails retryably on the first `k` attempts and succeeds on attempt
`k + 1` with `k ≤ maxRetries`, `executeWithRetry` reports `success` and
`retryCount = k`; if every attempt fails, it reports failure with
`retryCount` equal to the number of failed attempts minus one (the
attempt history is then failure-only, one entry per attempt). -/
theorem c6_retry_count_accounting (oracle : Oracle) (task : TaskDefinition)
    (hvalid : validateRetryConfig (createRetryConfig task) = none) :
    (∀ k d, k ≤ (task.retries.getD 0).toNat →
      (∀ i, i < k → ∃ m, oracle task.id i = .err m ∧
        shouldRetry m (task.retryableErrors.getD []) = true) →
      oracle task.id k = .ok d →
      ∃ rr, executeWithRetry oracle task = .ok rr ∧
        rr.success = true ∧ rr.retryCount = k) ∧
    ((∀ i, ∃ m, oracle task.id i = .err m) →
      ∃ rr, executeWithRetry oracle task = .ok rr ∧
        rr.success = false ∧ rr.retryCount + 1 = rr.attempts.length ∧
        ∀ a ∈ rr.attempts, a.success = false) := by
  constructor
  · intro k d hk hfail hok
    refine ⟨_, executeWithRetry_valid oracle task hvalid, ?_⟩
    exact retryLoop_success_at oracle task _ k d hk hok hfail k 0 [] (by omega)
      (by omega)
  · intro hfail
    refine ⟨_, executeWithRetry_valid oracle task hvalid, ?_, ?_, ?_⟩
    · exact (retryLoop_all_fail oracle task _ hfail 0 []).1
    · exact (retryLoop_attempts oracle task _ 0 [] rfl).symm
    · exact (retryLoop_all_fail oracle task _ hfail 0 []).2 (by simp)

/-- C6 witness: a handler failing with "timeout" on attempts 0 and 1
and succeeding on attempt 2, with `retries = 2`, yields a successful
result with `retryCount = 2`. -/
theorem c6_witness :
    ∃ rr, executeWithRetry (fun _ i => if i < 2 then .err "timeout" else .ok "done")
      { id := "t", retries := some 2 } = .ok rr ∧
      rr.success = true ∧ rr.retryCount = 2 :=
  (c6_retry_count_accounting (fun _ i => if i < 2 then .err "timeout" else .ok "done")
    { id := "t", retries := some 2 } (by decide)).1 2 "done" (by norm_num)
    (fun i hi => ⟨"timeout", by simp [hi], by decide⟩) (by simp)

/-- C10 (implicit).  Every `RetryResult` returned by `executeWithRetry`
satisfies `attempts.length = retryCount + 1`: one history entry per
handler invocation, including the final one. -/
theorem c10_attempts_per_invocation (oracle : Oracle) (task : TaskDefinition)
    (rr : RetryResult) (h : executeWithRetry oracle task = .ok rr) :
    rr.attempts.length = rr.retryCount + 1 := by
  rcases hv : validateRetryConfig (createRetryConfig task) with _ | msg
  · rw [executeWithRetry_valid oracle task hv] at h
    cases h
    exact retryLoop_attempts oracle task _ 0 [] rfl
  · rw [executeWithRetry_invalid oracle task msg hv] at h
    cases h

/-- C10 witness: a handler succeeding immediately yields one recorded
attempt and `retryCount = 0`. -/
theorem c10_witness :
    ∃ rr, executeWithRetry (fun _ _ => .ok "x") { id := "t" } = .ok rr ∧
      rr.attempts.length = rr.retryCount + 1 := by
  have h : executeWithRetry (fun _ _ => Outcome.ok "x") { id := "t" } =
      .ok (retryLoop (fun _ _ => Outcome.ok "x") { id := "t" } 0 0 []) :=
    executeWithRetry_valid _ _ (by decide)
  exact ⟨_, h, c10_attempts_per_invocation _ _ _ h⟩

/-- The prefix test agrees with `List.IsPrefix`. -/
theorem listPrefix_iff : ∀ needle hay : List Char,
    listPrefix needle hay = true ↔ needle <+: hay := by
  intro needle
  induction needle with
  | nil => intro hay; simp [listPrefix]
  | cons a as ih =>
      intro hay
      cases hay with
      | nil => simp [listPrefix]
      | cons b bs => simp [listPrefix, List.cons_prefix_cons, ih bs]

/-- The containment test agrees with `List.IsInfix`. -/
theorem containsAux_iff (needle : List Char) : ∀ hay : List Char,
    containsAux needle hay = true ↔ needle <:+: hay := by
  intro hay
  induction hay with
  | nil => simp [containsAux, listPrefix_iff]
  | cons c rest ih =>
      simp [containsAux, listPrefix_iff, ih, List.infix_cons_iff]

/-- C8.  `shouldRetry` returns `true` iff the error's message, compared
case-insensitively, contains at least one substring from the union of
the built-in retryable set and the custom list. -/
theorem c8_should_retry_iff (errorMessage : String) (custom : List String) :
    shouldRetry errorMessage custom = true ↔
      ∃ s ∈ DEFAULT_RETRYABLE_ERRORS ++ custom,
        (strToLower s).data <:+: (strToLower errorMessage).data := by
  simp only [shouldRetry, List.any_eq_true, includes, containsAux_iff]

/-- C7.  `calculateRetryDelay` computes
`min (baseDelayMs * 2 ^ (n - 1)) maxDelayMs` for the exponential
strategy, `min (baseDelayMs * n) maxDelayMs` for the linear strategy,
and for jitter a value between the exponential value and 1.1 times it,
capped at `maxDelayMs`. -/
theorem c7_calculate_retry_delay (n : Nat) (config : RetryConfig) (rand : ℚ)
    (_hn : 1 ≤ n) (hr0 : 0 ≤ rand) (hr1 : rand < 1)
    (hb : 0 ≤ config.baseDelayMs) :
    (config.strategy.getD .exponential = .exponential →
      calculateRetryDelay n config rand =
        min (config.baseDelayMs * 2 ^ (n - 1)) ((config.maxDelayMs).getD 30000)) ∧
    (config.strategy.getD .exponential = .linear →
      calculateRetryDelay n config rand =
        min (config.baseDelayMs * n) ((config.maxDelayMs).getD 30000)) ∧
    (config.strategy.getD .exponential = .jitter →
      ∃ v, calculateRetryDelay n config rand =
          min v ((config.maxDelayMs).getD 30000) ∧
        config.baseDelayMs * 2 ^ (n - 1) ≤ v ∧
        v ≤ (11 / 10) * (config.baseDelayMs * 2 ^ (n - 1))) := by
  have he : (0 : ℚ) ≤ 2 ^ (n - 1) * config.baseDelayMs := by positivity
  refine ⟨fun hs => ?_, fun hs => ?_, fun hs => ?_⟩ <;>
    simp only [calculateRetryDelay, hs]
  · rw [mul_comm]
  · rw [mul_comm]
  · refine ⟨_, rfl, ?_, ?_⟩
    · nlinarith [mul_nonneg (mul_nonneg hr0 (by norm_num : (0:ℚ) ≤ 1 / 10)) he]
    · nlinarith [mul_nonneg (sub_nonneg.mpr hr1.le) he]

/-- C7 witness: with the system defaults (base delay 100, exponential
strategy, cap 30000) the second retry waits 200 ms. -/
theorem c7_witness :
    calculateRetryDelay 2 (createRetryConfig { id := "t" }) 0 = 200 := by
  have h := c7_calculate_retry_delay 2 (createRetryConfig { id := "t" }) 0
    (by norm_num) (by norm_num) (by norm_num) (by norm_num [createRetryConfig])
  rw [h.1 (by rfl)]
  norm_num [createRetryConfig]

/-- C9 counterexample: the claim quantifies over every operation
sequence, but `markInProgress` does not check the completed set:
after `markCompleted "a"` then `markInProgress "a"`, the id "a" is in
both sets, so the sets are not disjoint. -/
theorem c9_counterexample :
    "a" ∈ (applyOps [.markCompleted "a", .markInProgress "a"]).completed ∧
    "a" ∈ (applyOps [.markCompleted "a", .markInProgress "a"]).inProgress := by
  decide

/-- C9 amended: for every operation sequence in which `markInProgress`
is only applied to ids not already completed at that point (as the
engine guarantees by dispatching only `isReady` tasks), the completed
and in-progress sets stay disjoint. -/
theorem c9_disjoint_when_orderly (ops : List TrackerOp)
    (h : okSeq TaskStateTracker.empty ops = true) :
    ∀ x, ¬(x ∈ (applyOps ops).completed ∧ x ∈ (applyOps ops).inProgress) := by
  have main : ∀ (l : List TrackerOp) (t : TaskStateTracker),
      okSeq t l = true →
      (∀ x, ¬(x ∈ t.completed ∧ x ∈ t.inProgress)) →
      ∀ x, ¬(x ∈ (l.foldl applyOp t).completed ∧
             x ∈ (l.foldl applyOp t).inProgress) := by
    intro l
    induction l with
    | nil => intro t _ hinv; simpa using hinv
    | cons op ops ih =>
        intro t hok hinv
        rw [List.foldl_cons]
        have hok2 : okSeq (applyOp t op) ops = true := by
          cases op with
          | markInProgress taskId =>
              simp [okSeq, Bool.and_eq_true] at hok
              exact hok.2
          | markCompleted taskId => simpa [okSeq] using hok
        refine ih (applyOp t op) hok2 ?_
        cases op with
        | markInProgress taskId =>
            have hnc : taskId ∉ t.completed := by
              simp [okSeq, Bool.and_eq_true] at hok
              exact hok.1
            intro x hx
            rcases hx with ⟨hc, hp⟩
            simp [applyOp, TaskStateTracker.markInProgress] at hc hp
            rcases hp with rfl | hp2
            · exact hnc hc
            · exact hinv x ⟨hc, hp2⟩
        | markCompleted taskId =>
            intro x hx
            rcases hx with ⟨hc, hp⟩
            simp [applyOp, TaskStateTracker.markCompleted] at hc hp
            rcases hc with rfl | hc2
            · exact hp.1 rfl
            · exact hinv x ⟨hc2, hp.2⟩
  exact main ops TaskStateTracker.empty h (by simp [TaskStateTracker.empty])

/-! ## Cycle-detection correctness -/

/-- Branch equation: empty dependency list. -/
theorem depsLoop_nil {rec} {v s : List String} :
    depsLoop rec [] v s = some (false, v) := rfl

/-- Branch equation: dependency already visited and on the stack. -/
theorem depsLoop_cons_mem_stack {rec} {d : String} {ds v s}
    (hdv : d ∈ v) (hds : d ∈ s) :
    depsLoop rec (d :: ds) v s = some (true, v) := by
  simp [depsLoop, hdv, hds]

/-- Branch equation: dependency already visited, not on the stack. -/
theorem depsLoop_cons_mem_visited {rec} {d : String} {ds v s}
    (hdv : d ∈ v) (hds : d ∉ s) :
    depsLoop rec (d :: ds) v s = depsLoop rec ds v s := by
  simp [depsLoop, hdv, hds]

/-- Branch equation: unvisited dependency, recursion runs out of fuel. -/
theorem depsLoop_cons_new_none {rec} {d : String} {ds v s}
    (hdv : d ∉ v) (hrec : rec d v s = none) :
    depsLoop rec (d :: ds) v s = none := by
  simp [depsLoop, hdv, hrec]

/-- Branch equation: unvisited dependency, recursion finds a cycle. -/
theorem depsLoop_cons_new_true {rec} {d : String} {ds v s v1}
    (hdv : d ∉ v) (hrec : rec d v s = some (true, v1)) :
    depsLoop rec (d :: ds) v s = some (true, v1) := by
  simp [depsLoop, hdv, hrec]

/-- Branch equation: unvisited dependency, recursion finds no cycle. -/
theorem depsLoop_cons_new_false {rec} {d : String} {ds v s v1}
    (hdv : d ∉ v) (hrec : rec d v s = some (false, v1)) :
    depsLoop rec (d :: ds) v s = depsLoop rec ds v1 s := by
  simp [depsLoop, hdv, hrec]

/-- Unfolding one unit of DFS fuel. -/
theorem dfsAux_succ {w : List TaskDefinition} {fuel : Nat} {taskId v s} :
    dfsAux w (fuel + 1) taskId v s =
      depsLoop (dfsAux w fuel) (wdeps w taskId) (taskId :: v) (taskId :: s) := rfl

/-- Out of fuel. -/
theorem dfsAux_zero {w : List TaskDefinition} {taskId v s} :
    dfsAux w 0 taskId v s = none := rfl

/-- The dependency loop only grows the visited set. -/
theorem depsLoop_subset
    (rec : String → List String → List String → Option (Bool × List String))
    (Hrec : ∀ d v s b v', rec d v s = some (b, v') → v ⊆ v') :
    ∀ ds v s b v', depsLoop rec ds v s = some (b, v') → v ⊆ v' := by
  intro ds
  induction ds with
  | nil =>
      intro v s b v' h
      rw [depsLoop_nil] at h
      cases h
      exact fun a ha => ha
  | cons d ds ih =>
      intro v s b v' h
      by_cases hdv : d ∈ v
      · by_cases hds : d ∈ s
        · rw [depsLoop_cons_mem_stack hdv hds] at h
          cases h
          exact fun a ha => ha
        · rw [depsLoop_cons_mem_visited hdv hds] at h
          exact ih v s b v' h
      · cases hrec : rec d v s with
        | none =>
            rw [depsLoop_cons_new_none hdv hrec] at h
            cases h
        | some p =>
            obtain ⟨b2, v2⟩ := p
            cases b2 with
            | true =>
                rw [depsLoop_cons_new_true hdv hrec] at h
                cases h
                exact Hrec d v s true v' hrec
            | false =>
                rw [depsLoop_cons_new_false hdv hrec] at h
                exact fun a ha => ih v2 s b v' h (Hrec d v s false v2 hrec ha)

/-- The DFS only grows the visited set, and marks its root visited. -/
theorem dfsAux_subset (w : List TaskDefinition) :
    ∀ fuel taskId v s b v', dfsAux w fuel taskId v s = some (b, v') →
      v ⊆ v' ∧ taskId ∈ v' := by
  intro fuel
  induction fuel with
  | zero =>
      intro taskId v s b v' h
      rw [dfsAux_zero] at h
      cases h
  | succ n ih =>
      intro taskId v s b v' h
      rw [dfsAux_succ] at h
      have hsub := depsLoop_subset (dfsAux w n)
        (fun d vv ss bb vv' hr => (ih d vv ss bb vv' hr).1) _ _ _ _ _ h
      exact ⟨fun a ha => hsub (List.mem_cons_of_mem _ ha),
             hsub (List.mem_cons_self _ _)⟩

/-- Soundness of the dependency loop: a `true` return yields a cycle,
given that the stack consists of ids that reach the current id. -/
theorem depsLoop_sound (w : List TaskDefinition)
    (rec : String → List String → List String → Option (Bool × List String))
    (Hrec : ∀ d v s v', rec d v s = some (true, v') →
      (∀ x ∈ s, Relation.ReflTransGen (Edge w) x d) → HasEdgeCycle w) :
    ∀ ds v s v' cur, (∀ d ∈ ds, Edge w cur d) →
      (∀ x ∈ s, Relation.ReflTransGen (Edge w) x cur) → cur ∈ s →
      depsLoop rec ds v s = some (true, v') → HasEdgeCycle w := by
  intro ds
  induction ds with
  | nil =>
      intro v s v' cur _ _ _ h
      rw [depsLoop_nil] at h
      simp at h
  | cons d ds ih =>
      intro v s v' cur hedge hreach hcur h
      by_cases hdv : d ∈ v
      · by_cases hds : d ∈ s
        · exact ⟨d, Relation.TransGen.tail' (hreach d hds)
            (hedge d (List.mem_cons_self d ds))⟩
        · rw [depsLoop_cons_mem_visited hdv hds] at h
          exact ih v s v' cur (fun x hx => hedge x (List.mem_cons_of_mem _ hx))
            hreach hcur h
      · cases hrec : rec d v s with
        | none =>
            rw [depsLoop_cons_new_none hdv hrec] at h
            cases h
        | some p =>
            obtain ⟨b2, v2⟩ := p
            cases b2 with
            | true =>
                exact Hrec d v s v2 hrec (fun x hx =>
                  Relation.ReflTransGen.tail (hreach x hx)
                    (hedge d (List.mem_cons_self d ds)))
            | false =>
                rw [depsLoop_cons_new_false hdv hrec] at h
                exact ih v2 s v' cur
                  (fun x hx => hedge x (List.mem_cons_of_mem _ hx)) hreach hcur h

/-- Soundness of the DFS: a `true` return means the graph it walks has
a cycle. -/
theorem dfsAux_sound (w : List TaskDefinition) :
    ∀ fuel taskId v s v', dfsAux w fuel taskId v s = some (true, v') →
      (∀ x ∈ s, Relation.ReflTransGen (Edge w) x taskId) → HasEdgeCycle w := by
  intro fuel
  induction fuel with
  | zero =>
      intro taskId v s v' h _
      rw [dfsAux_zero] at h
      cases h
  | succ n ih =>
      intro taskId v s v' h hreach
      rw [dfsAux_succ] at h
      refine depsLoop_sound w (dfsAux w n)
        (fun d vv ss vv' hr hst => ih d vv ss vv' hr hst)
        (wdeps w taskId) _ _ v' taskId (fun d hd => hd) ?_
        (List.mem_cons_self taskId s) h
      intro x hx
      rcases List.mem_cons.mp hx with rfl | hxs
      · exact Relation.ReflTransGen.refl
      · exact hreach x hxs

/-- Reachability from a finished id stays among finished ids. -/
theorem reach_black (w : List TaskDefinition) (v s : List String)
    (hc : Closed w v s) :
    ∀ a c, Relation.ReflTransGen (Edge w) a c → a ∈ v → a ∉ s →
      c ∈ v ∧ c ∉ s := by
  intro a c h
  induction h with
  | refl => intro ha hs; exact ⟨ha, hs⟩
  | tail hab hbc ih =>
      intro ha hs
      obtain ⟨hb, hbs⟩ := ih ha hs
      exact hc _ hb hbs _ hbc

/-- Pushing a fresh id onto visited and stack preserves `Closed`. -/
theorem closed_cons (w : List TaskDefinition) (v s : List String)
    (taskId : String) (hc : Closed w v s) (hid : taskId ∉ v) :
    Closed w (taskId :: v) (taskId :: s) := by
  intro a ha has b hb
  rcases List.mem_cons.mp ha with rfl | hav
  · exact (has (List.mem_cons_self a s)).elim
  · have has2 : a ∉ s := fun h => has (List.mem_cons_of_mem _ h)
    obtain ⟨hbv, hbs⟩ := hc a hav has2 b hb
    refine ⟨List.mem_cons_of_mem _ hbv, ?_⟩
    intro hbc
    rcases List.mem_cons.mp hbc with rfl | hbs2
    · exact hid hbv
    · exact hbs hbs2

/-- Pushing an id onto visited and stack preserves `NoCyc` (the set of
finished ids is unchanged). -/
theorem nocyc_cons (w : List TaskDefinition) (v s : List String)
    (taskId : String) (hn : NoCyc w v s) :
    NoCyc w (taskId :: v) (taskId :: s) := by
  intro a ha has
  rcases List.mem_cons.mp ha with rfl | hav
  · exact (has (List.mem_cons_self a s)).elim
  · exact hn a hav (fun h => has (List.mem_cons_of_mem _ h))

/-- Popping a finished id off the stack preserves `Closed`, given that
all its successors are finished. -/
theorem closed_pop (w : List TaskDefinition) (v1 s : List String)
    (taskId : String) (hc : Closed w v1 (taskId :: s))
    (hdeps : ∀ d ∈ wdeps w taskId, d ∈ v1 ∧ d ∉ taskId :: s) :
    Closed w v1 s := by
  intro a ha has b hb
  by_cases haid : a = taskId
  · subst haid
    obtain ⟨hbv, hbs⟩ := hdeps b hb
    exact ⟨hbv, fun h => hbs (List.mem_cons_of_mem _ h)⟩
  · have has2 : a ∉ taskId :: s := by
      intro h
      rcases List.mem_cons.mp h with h | h
      · exact haid h
      · exact has h
    obtain ⟨hbv, hbs⟩ := hc a ha has2 b hb
    exact ⟨hbv, fun h => hbs (List.mem_cons_of_mem _ h)⟩

/-- Popping a finished id off the stack preserves `NoCyc`: a cycle
through the popped id would re-enter the stack from a finished id. -/
theorem nocyc_pop (w : List TaskDefinition) (v1 s : List String)
    (taskId : String) (hc : Closed w v1 (taskId :: s))
    (hn : NoCyc w v1 (taskId :: s))
    (hdeps : ∀ d ∈ wdeps w taskId, d ∈ v1 ∧ d ∉ taskId :: s) :
    NoCyc w v1 s := by
  intro a ha has
  by_cases haid : a = taskId
  · subst haid
    intro hcyc
    obtain ⟨b, hab, hba⟩ := Relation.TransGen.head'_iff.mp hcyc
    obtain ⟨hbv, hbs⟩ := hdeps b hab
    obtain ⟨_, his⟩ := reach_black w v1 (a :: s) hc b a hba hbv hbs
    exact his (List.mem_cons_self a s)
  · have has2 : a ∉ taskId :: s := by
      intro h
      rcases List.mem_cons.mp h with h | h
      · exact haid h
      · exact has h
    exact hn a ha has2

/-- The false return of the dependency loop preserves the invariants
and reports every scanned dependency finished. -/
theorem depsLoop_false_post (w : List TaskDefinition)
    (rec : String → List String → List String → Option (Bool × List String))
    (Hpost : ∀ d v s v', rec d v s = some (false, v') →
      Closed w v s → NoCyc w v s → s ⊆ v → d ∉ v →
      Closed w v' s ∧ NoCyc w v' s ∧ (d :: v) ⊆ v') :
    ∀ ds v s v1, depsLoop rec ds v s = some (false, v1) →
      Closed w v s → NoCyc w v s → s ⊆ v →
      Closed w v1 s ∧ NoCyc w v1 s ∧ v ⊆ v1 ∧
        (∀ d ∈ ds, d ∈ v1 ∧ d ∉ s) := by
  intro ds
  induction ds with
  | nil =>
      intro v s v1 h hc hn _
      rw [depsLoop_nil] at h
      cases h
      exact ⟨hc, hn, fun a ha => ha, by simp⟩
  | cons d ds ih =>
      intro v s v1 h hc hn hs
      by_cases hdv : d ∈ v
      · by_cases hds : d ∈ s
        · rw [depsLoop_cons_mem_stack hdv hds] at h
          simp at h
        · rw [depsLoop_cons_mem_visited hdv hds] at h
          obtain ⟨hc1, hn1, hsub, hall⟩ := ih v s v1 h hc hn hs
          refine ⟨hc1, hn1, hsub, ?_⟩
          intro x hx
          rcases List.mem_cons.mp hx with rfl | hx2
          · exact ⟨hsub hdv, hds⟩
          · exact hall x hx2
      · cases hrec : rec d v s with
        | none =>
            rw [depsLoop_cons_new_none hdv hrec] at h
            cases h
        | some p =>
            obtain ⟨b2, v2⟩ := p
            cases b2 with
            | true =>
                rw [depsLoop_cons_new_true hdv hrec] at h
                simp at h
            | false =>
                rw [depsLoop_cons_new_false hdv hrec] at h
                obtain ⟨hc2, hn2, hdv2⟩ := Hpost d v s v2 hrec hc hn hs hdv
                have hs2 : s ⊆ v2 :=
                  fun x hx => hdv2 (List.mem_cons_of_mem _ (hs hx))
                obtain ⟨hc1, hn1, hsub, hall⟩ := ih v2 s v1 h hc2 hn2 hs2
                refine ⟨hc1, hn1,
                  fun x hx => hsub (hdv2 (List.mem_cons_of_mem _ hx)), ?_⟩
                intro x hx
                rcases List.mem_cons.mp hx with rfl | hx2
                · exact ⟨hsub (hdv2 (List.mem_cons_self x v)),
                    fun hxs => hdv (hs hxs)⟩
                · exact hall x hx2

/-- The false return of the DFS preserves the invariants and marks its
root finished. -/
theorem dfsAux_false_post (w : List TaskDefinition) :
    ∀ fuel taskId v s v1,
      dfsAux w fuel taskId v s = some (false, v1) →
      Closed w v s → NoCyc w v s → s ⊆ v → taskId ∉ v →
      Closed w v1 s ∧ NoCyc w v1 s ∧ (taskId :: v) ⊆ v1 := by
  intro fuel
  induction fuel with
  | zero =>
      intro taskId v s v1 h
      rw [dfsAux_zero] at h
      cases h
  | succ n ih =>
      intro taskId v s v1 h hc hn hs hid
      rw [dfsAux_succ] at h
      obtain ⟨hc1, hn1, hsub, hall⟩ :=
        depsLoop_false_post w (dfsAux w n)
          (fun d vv ss vv' hr hcc hnn hss hdd => ih d vv ss vv' hr hcc hnn hss hdd)
          (wdeps w taskId) (taskId :: v) (taskId :: s) v1 h
          (closed_cons w v s taskId hc hid) (nocyc_cons w v s taskId hn)
          (fun x hx => (List.mem_cons.mp hx).elim
            (fun e => e ▸ List.mem_cons_self taskId v)
            (fun hxs => List.mem_cons_of_mem _ (hs hxs)))
      exact ⟨closed_pop w v1 s taskId hc1 hall,
             nocyc_pop w v1 s taskId hc1 hn1 hall, hsub⟩

/-- Dependencies looked up by the DFS name existing tasks. -/
theorem wdeps_subset (w : List TaskDefinition) (hde : DepsExist w)
    (taskId : String) : ∀ d ∈ wdeps w taskId, d ∈ taskIds w := by
  intro d hd
  unfold wdeps at hd
  cases hf : w.find? (fun t => t.id == taskId) with
  | none => rw [hf] at hd; cases hd
  | some t =>
      rw [hf] at hd
      exact hde t (List.mem_of_find?_eq_some hf) d hd

/-- The source of an edge is a task id. -/
theorem edge_src_mem (w : List TaskDefinition) {a b : String}
    (h : Edge w a b) : a ∈ taskIds w := by
  unfold Edge wdeps at h
  cases hf : w.find? (fun t => t.id == a) with
  | none => rw [hf] at h; cases h
  | some t =>
      have ht := List.mem_of_find?_eq_some hf
      have hpred : t.id = a := by simpa using List.find?_some hf
      simp only [taskIds, List.mem_map]
      exact ⟨t, ht, hpred⟩

/-- Adding a fresh task id to the visited set strictly shrinks the set
of unvisited task ids. -/
theorem sdiff_card_lt (w : List TaskDefinition) (taskId : String)
    (v : List String) (hid : taskId ∈ taskIds w) (hv : taskId ∉ v) :
    ((taskIds w).toFinset \ (taskId :: v).toFinset).card <
      ((taskIds w).toFinset \ v.toFinset).card := by
  have h1 : (taskIds w).toFinset \ (taskId :: v).toFinset =
      ((taskIds w).toFinset \ v.toFinset).erase taskId := by
    ext x
    simp only [List.toFinset_cons, Finset.mem_sdiff, Finset.mem_insert,
      Finset.mem_erase, List.mem_toFinset]
    tauto
  rw [h1]
  apply Finset.card_erase_lt_of_mem
  simp only [Finset.mem_sdiff, List.mem_toFinset]
  exact ⟨hid, hv⟩

/-- Growing the visited set does not grow the set of unvisited ids. -/
theorem sdiff_card_mono (w : List TaskDefinition) (v v' : List String)
    (h : v ⊆ v') :
    ((taskIds w).toFinset \ v'.toFinset).card ≤
      ((taskIds w).toFinset \ v.toFinset).card := by
  apply Finset.card_le_card
  apply Finset.sdiff_subset_sdiff (Finset.Subset.refl _)
  intro x hx
  rw [List.mem_toFinset] at hx ⊢
  exact h hx

/-- Fuel sufficiency: with at least as much fuel as there are unvisited
task ids, neither the DFS nor its dependency loop runs out. -/
theorem dfs_fuel (w : List TaskDefinition) (hde : DepsExist w) : ∀ fuel,
    (∀ taskId v s, taskId ∈ taskIds w → taskId ∉ v →
      ((taskIds w).toFinset \ v.toFinset).card ≤ fuel →
      dfsAux w fuel taskId v s ≠ none) ∧
    (∀ ds v s, (∀ d ∈ ds, d ∈ taskIds w) →
      ((taskIds w).toFinset \ v.toFinset).card ≤ fuel →
      depsLoop (dfsAux w fuel) ds v s ≠ none) := by
  intro fuel
  induction fuel with
  | zero =>
      have habs : ∀ taskId (v : List String), taskId ∈ taskIds w → taskId ∉ v →
          ¬ ((taskIds w).toFinset \ v.toFinset).card ≤ 0 := by
        intro taskId v hid hv hm
        have : 0 < ((taskIds w).toFinset \ v.toFinset).card := by
          apply Finset.card_pos.mpr
          exact ⟨taskId, by
            simp only [Finset.mem_sdiff, List.mem_toFinset]
            exact ⟨hid, hv⟩⟩
        omega
      constructor
      · intro taskId v s hid hv hm
        exact absurd hm (habs taskId v hid hv)
      · intro ds
        induction ds with
        | nil =>
            intro v s _ _
            rw [depsLoop_nil]
            simp
        | cons d ds ih =>
            intro v s hds hm
            by_cases hdv : d ∈ v
            · by_cases hdss : d ∈ s
              · rw [depsLoop_cons_mem_stack hdv hdss]; simp
              · rw [depsLoop_cons_mem_visited hdv hdss]
                exact ih v s (fun x hx => hds x (List.mem_cons_of_mem _ hx)) hm
            · exact absurd hm (habs d v (hds d (List.mem_cons_self d ds)) hdv)
  | succ n ihn =>
      obtain ⟨_, Qn⟩ := ihn
      have Psucc : ∀ taskId v s, taskId ∈ taskIds w → taskId ∉ v →
          ((taskIds w).toFinset \ v.toFinset).card ≤ n + 1 →
          dfsAux w (n + 1) taskId v s ≠ none := by
        intro taskId v s hid hv hm
        rw [dfsAux_succ]
        apply Qn (wdeps w taskId) (taskId :: v) (taskId :: s)
          (wdeps_subset w hde taskId)
        have := sdiff_card_lt w taskId v hid hv
        omega
      refine ⟨Psucc, ?_⟩
      intro ds
      induction ds with
      | nil =>
          intro v s _ _
          rw [depsLoop_nil]
          simp
      | cons d ds ih =>
          intro v s hds hm
          by_cases hdv : d ∈ v
          · by_cases hdss : d ∈ s
            · rw [depsLoop_cons_mem_stack hdv hdss]; simp
            · rw [depsLoop_cons_mem_visited hdv hdss]
              exact ih v s (fun x hx => hds x (List.mem_cons_of_mem _ hx)) hm
          · cases hrec : dfsAux w (n + 1) d v s with
            | none =>
                exact absurd hrec
                  (Psucc d v s (hds d (List.mem_cons_self d ds)) hdv hm)
            | some p =>
                obtain ⟨b2, v2⟩ := p
                cases b2 with
                | true => rw [depsLoop_cons_new_true hdv hrec]; simp
                | false =>
                    rw [depsLoop_cons_new_false hdv hrec]
                    apply ih v2 s (fun x hx => hds x (List.mem_cons_of_mem _ hx))
                    have hsub := (dfsAux_subset w (n + 1) d v s false v2 hrec).1
                    have := sdiff_card_mono w v v2 hsub
                    omega

/-- Branch equation: empty task loop. -/
theorem vcdGo_nil {w : List TaskDefinition} {v : List String} :
    vcdGo w [] v = none := rfl

/-- Branch equation: task already visited. -/
theorem vcdGo_cons_mem {w : List TaskDefinition} {task : TaskDefinition}
    {ts v} (h : task.id ∈ v) :
    vcdGo w (task :: ts) v = vcdGo w ts v := by
  simp [vcdGo, h]

/-- Branch equation: fresh task, DFS out of fuel (model artifact). -/
theorem vcdGo_cons_new_none {w : List TaskDefinition} {task : TaskDefinition}
    {ts v} (h : task.id ∉ v)
    (hr : dfsAux w (w.length + 1) task.id v [] = none) :
    vcdGo w (task :: ts) v = some "dfs fuel exhausted" := by
  simp [vcdGo, h, hr]

/-- Branch equation: fresh task, DFS detects a cycle. -/
theorem vcdGo_cons_new_true {w : List TaskDefinition} {task : TaskDefinition}
    {ts v v1} (h : task.id ∉ v)
    (hr : dfsAux w (w.length + 1) task.id v [] = some (true, v1)) :
    vcdGo w (task :: ts) v =
      some ("Circular dependency detected involving task " ++ task.id) := by
  simp [vcdGo, h, hr]

/-- Branch equation: fresh task, DFS finds no cycle. -/
theorem vcdGo_cons_new_false {w : List TaskDefinition} {task : TaskDefinition}
    {ts v v1} (h : task.id ∉ v)
    (hr : dfsAux w (w.length + 1) task.id v [] = some (false, v1)) :
    vcdGo w (task :: ts) v = vcdGo w ts v1 := by
  simp [vcdGo, h, hr]

/-- When the whole validator loop reports no cycle, there is a final
visited set, containing every listed task id, on which `NoCyc` holds
with an empty stack: none of those ids lies on a cycle. -/
theorem vcdGo_none (w : List TaskDefinition) :
    ∀ ts v, vcdGo w ts v = none → Closed w v [] → NoCyc w v [] →
      ∃ V, NoCyc w V [] ∧ v ⊆ V ∧ ∀ t ∈ ts, t.id ∈ V := by
  intro ts
  induction ts with
  | nil =>
      intro v _ _ hn
      exact ⟨v, hn, fun a ha => ha, by simp⟩
  | cons t ts ih =>
      intro v h hc hn
      by_cases htv : t.id ∈ v
      · rw [vcdGo_cons_mem htv] at h
        obtain ⟨V, hnV, hsubV, hall⟩ := ih v h hc hn
        refine ⟨V, hnV, hsubV, ?_⟩
        intro x hx
        rcases List.mem_cons.mp hx with rfl | hx2
        · exact hsubV htv
        · exact hall x hx2
      · cases hrec : dfsAux w (w.length + 1) t.id v [] with
        | none => rw [vcdGo_cons_new_none htv hrec] at h; cases h
        | some p =>
            obtain ⟨b2, v1⟩ := p
            cases b2 with
            | true => rw [vcdGo_cons_new_true htv hrec] at h; cases h
            | false =>
                rw [vcdGo_cons_new_false htv hrec] at h
                obtain ⟨hc1, hn1, hsub⟩ :=
                  dfsAux_false_post w (w.length + 1) t.id v [] v1 hrec hc hn
                    (List.nil_subset v) htv
                obtain ⟨V, hnV, hsubV, hall⟩ := ih v1 h hc1 hn1
                refine ⟨V, hnV,
                  fun a ha => hsubV (hsub (List.mem_cons_of_mem _ ha)), ?_⟩
                intro x hx
                rcases List.mem_cons.mp hx with rfl | hx2
                · exact hsubV (hsub (List.mem_cons_self _ _))
                · exact hall x hx2

/-- When the validator loop reports an error, the walked graph has a
cycle (the fuel branch is impossible by `dfs_fuel`). -/
theorem vcdGo_some (w : List TaskDefinition) (hde : DepsExist w) :
    ∀ ts v msg, (∀ t ∈ ts, t ∈ w) → vcdGo w ts v = some msg →
      HasEdgeCycle w := by
  intro ts
  induction ts with
  | nil => intro v msg _ h; rw [vcdGo_nil] at h; cases h
  | cons t ts ih =>
      intro v msg hts h
      by_cases htv : t.id ∈ v
      · rw [vcdGo_cons_mem htv] at h
        exact ih v msg (fun x hx => hts x (List.mem_cons_of_mem _ hx)) h
      · cases hrec : dfsAux w (w.length + 1) t.id v [] with
        | none =>
            exfalso
            have hid : t.id ∈ taskIds w := by
              simp only [taskIds, List.mem_map]
              exact ⟨t, hts t (List.mem_cons_self t ts), rfl⟩
            have hm : ((taskIds w).toFinset \ v.toFinset).card ≤ w.length + 1 := by
              have h1 : ((taskIds w).toFinset \ v.toFinset).card ≤
                  (taskIds w).toFinset.card :=
                Finset.card_le_card (Finset.sdiff_subset)
              have h2 : (taskIds w).toFinset.card ≤ (taskIds w).length :=
                List.toFinset_card_le _
              have h3 : (taskIds w).length = w.length := by simp [taskIds]
              omega
            exact (dfs_fuel w hde (w.length + 1)).1 t.id v [] hid htv hm hrec
        | some p =>
            obtain ⟨b2, v1⟩ := p
            cases b2 with
            | true =>
                exact dfsAux_sound w (w.length + 1) t.id v [] v1 hrec (by simp)
            | false =>
                rw [vcdGo_cons_new_false htv hrec] at h
                exact ih v1 msg (fun x hx => hts x (List.mem_cons_of_mem _ hx)) h

/-- Uniqueness check: passes exactly on duplicate-free id lists. -/
theorem validateTaskIds_eq_none (w : List TaskDefinition) :
    validateTaskIds w = none ↔ (taskIds w).Nodup := by
  have hlen : (taskIds w).length = w.length := by simp [taskIds]
  constructor
  · intro h
    by_cases hd : (taskIds w).dedup.length ≠ w.length
    · unfold validateTaskIds at h
      rw [if_pos hd] at h
      cases h
    · push_neg at hd
      have h2 : (taskIds w).dedup.length = (taskIds w).length := by omega
      have h3 := List.Sublist.eq_of_length (List.dedup_sublist _) h2
      rw [← h3]
      exact List.nodup_dedup _
  · intro h
    unfold validateTaskIds
    rw [if_neg]
    push_neg
    rw [List.dedup_eq_self.mpr h]
    exact hlen

/-- Referential-integrity check: passes exactly when every dependency
id names an existing task. -/
theorem validateDependencies_eq_none (w : List TaskDefinition) :
    validateDependencies w = none ↔ DepsExist w := by
  unfold validateDependencies DepsExist
  rw [List.findSome?_eq_none_iff]
  constructor
  · intro h t ht d hd
    have h2 := h t ht
    rw [List.findSome?_eq_none_iff] at h2
    have h3 := h2 d hd
    by_contra hmem
    rw [if_neg hmem] at h3
    cases h3
  · intro h t ht
    rw [List.findSome?_eq_none_iff]
    intro d hd
    rw [if_pos (h t ht d hd)]

/-- Under unique ids, the spec-side dependency relation coincides with
the graph the DFS walks. -/
theorem depRel_iff_edge (w : List TaskDefinition)
    (h1 : (taskIds w).Nodup) (a b : String) :
    DepRel w a b ↔ Edge w a b := by
  constructor
  · rintro ⟨t, ht, rfl, hb⟩
    unfold Edge wdeps
    cases hf : w.find? (fun x => x.id == t.id) with
    | none =>
        exfalso
        have := List.find?_eq_none.mp hf t ht
        simp at this
    | some t' =>
        have ht' := List.mem_of_find?_eq_some hf
        have hpred : t'.id = t.id := by simpa using List.find?_some hf
        have : t' = t := List.inj_on_of_nodup_map h1 ht' ht hpred
        subst this
        exact hb
  · intro h
    unfold Edge wdeps at h
    cases hf : w.find? (fun x => x.id == a) with
    | none => rw [hf] at h; cases h
    | some t =>
        rw [hf] at h
        exact ⟨t, List.mem_of_find?_eq_some hf,
          by simpa using List.find?_some hf, h⟩

/-- Cycle existence transfers across the two relations. -/
theorem hasCycle_iff_edge (w : List TaskDefinition)
    (h1 : (taskIds w).Nodup) : HasCycle w ↔ HasEdgeCycle w := by
  constructor
  · rintro ⟨a, h⟩
    exact ⟨a, Relation.TransGen.mono
      (fun x y hxy => (depRel_iff_edge w h1 x y).mp hxy) h⟩
  · rintro ⟨a, h⟩
    exact ⟨a, Relation.TransGen.mono
      (fun x y hxy => (depRel_iff_edge w h1 x y).mpr hxy) h⟩

/-- C5.  For task lists with unique ids whose dependency references all
exist, `validateWorkflow` raises an error if and only if the dependency
relation contains a cycle (self-dependency being the one-step case);
under these hypotheses the first two checks pass, so any raised error
is the circular-dependency error. -/
theorem c5_cycle_detection_iff (w : List TaskDefinition)
    (h1 : (taskIds w).Nodup) (h2 : DepsExist w) :
    (validateWorkflow w).isSome ↔ HasCycle w := by
  have e1 : validateTaskIds w = none := (validateTaskIds_eq_none w).mpr h1
  have e2 : validateDependencies w = none :=
    (validateDependencies_eq_none w).mpr h2
  have e3 : validateWorkflow w = validateCircularDependencies w := by
    unfold validateWorkflow
    rw [e1, e2]
  rw [e3, hasCycle_iff_edge w h1]
  constructor
  · intro h
    cases hv : validateCircularDependencies w with
    | none => rw [hv] at h; cases h
    | some msg =>
        exact vcdGo_some w h2 w [] msg (fun t ht => ht) hv
  · intro hcyc
    cases hv : validateCircularDependencies w with
    | some msg => simp
    | none =>
        exfalso
        obtain ⟨V, hnV, _, hall⟩ := vcdGo_none w w [] hv
          (fun a ha => absurd ha (List.not_mem_nil a))
          (fun a ha => absurd ha (List.not_mem_nil a))
        obtain ⟨a, hcyca⟩ := hcyc
        have ha : a ∈ taskIds w := by
          obtain ⟨b, hab, _⟩ := Relation.TransGen.head'_iff.mp hcyca
          exact edge_src_mem w hab
        simp only [taskIds, List.mem_map] at ha
        obtain ⟨t, ht, rfl⟩ := ha
        exact hnV t.id (hall t ht) (List.not_mem_nil _) hcyca

/-- C5 witness: a self-dependent task has unique ids and existing
references, and the equivalence applies to it. -/
theorem c5_witness :
    (taskIds [{ id := "a", dependencies := some ["a"] }]).Nodup ∧
    DepsExist [{ id := "a", dependencies := some ["a"] }] ∧
    ((validateWorkflow [{ id := "a", dependencies := some ["a"] }]).isSome ↔
      HasCycle [{ id := "a", dependencies := some ["a"] }]) :=
  ⟨by decide, by unfold DepsExist; decide,
   c5_cycle_detection_iff [{ id := "a", dependencies := some ["a"] }]
     (by decide) (by unfold DepsExist; decide)⟩

/-- C9 witness: an orderly sequence (dispatch "a", complete "a",
dispatch "b") keeps the two sets disjoint. -/
theorem c9_witness :
    okSeq TaskStateTracker.empty
      [.markInProgress "a", .markCompleted "a", .markInProgress "b"] = true ∧
    ∀ x, ¬(x ∈ (applyOps [.markInProgress "a", .markCompleted "a",
        .markInProgress "b"]).completed ∧
      x ∈ (applyOps [.markInProgress "a", .markCompleted "a",
        .markInProgress "b"]).inProgress) :=
  ⟨by decide, c9_disjoint_when_orderly _ (by decide)⟩

/-! ## Engine lemmas -/

/-- A normal retry-handler return implies the configuration validated. -/
theorem executeWithRetry_ok_valid (oracle : Oracle) (task : TaskDefinition)
    (rr : RetryResult) (h : executeWithRetry oracle task = .ok rr) :
    validateRetryConfig (createRetryConfig task) = none := by
  cases hv : validateRetryConfig (createRetryConfig task) with
  | none => rfl
  | some msg =>
      rw [executeWithRetry_invalid oracle task msg hv] at h
      cases h

/-- Unfolding `executeTask` on a normal retry-handler return. -/
theorem executeTask_ok_of (oracle : Oracle) (task : TaskDefinition)
    (st : EngineState) (rr : RetryResult)
    (hexec : executeWithRetry oracle task = .ok rr) :
    executeTask oracle task st = .ok
      { results := mapSet st.results task.id rr.result
        errors := if rr.success then st.errors
                  else st.errors ++ [WError.task (rr.error.getD "")]
        tracker := (st.tracker.markInProgress task.id).markCompleted task.id
        log := st.log ++ [{ taskId := task.id
                            completedAtDispatch := st.tracker.completed
                            resultKeysAtDispatch := st.results.map Prod.fst }] } := by
  simp only [executeTask, hexec]

/-- Unfolding `executeTask` on a thrown configuration error. -/
theorem executeTask_err_of (oracle : Oracle) (task : TaskDefinition)
    (st : EngineState) (msg : String)
    (hexec : executeWithRetry oracle task = .error msg) :
    executeTask oracle task st = .error (.config msg,
      { st with tracker := st.tracker.markInProgress task.id
                log := st.log ++ [{ taskId := task.id
                                    completedAtDispatch := st.tracker.completed
                                    resultKeysAtDispatch := st.results.map Prod.fst }] }) := by
  simp only [executeTask, hexec]

/-- `isReady` unfolded to its three conditions. -/
theorem isReady_iff (t : TaskStateTracker) (task : TaskDefinition) :
    t.isReady task = true ↔
      task.id ∉ t.completed ∧ task.id ∉ t.inProgress ∧
        ∀ d ∈ task.dependencies.getD [], d ∈ t.completed := by
  cases hdep : task.dependencies with
  | none =>
      simp [TaskStateTracker.isReady, TaskStateTracker.isCompleted,
        TaskStateTracker.isInProgress, hdep]
  | some deps =>
      simp only [TaskStateTracker.isReady, TaskStateTracker.isCompleted,
        TaskStateTracker.isInProgress, hdep]
      simp [List.all_eq_true, and_assoc]

/-- Membership in the ready set. -/
theorem mem_getPending (t : TaskStateTracker) (workflow : List TaskDefinition)
    (task : TaskDefinition) :
    task ∈ t.getPending workflow ↔ task ∈ workflow ∧ t.isReady task = true := by
  simp [TaskStateTracker.getPending]

/-- `isAllCompleted` unfolded. -/
theorem isAllCompleted_iff (t : TaskStateTracker) (total : Nat) :
    t.isAllCompleted total = true ↔ t.completed.card = total := by
  simp [TaskStateTracker.isAllCompleted]

/-- `Map.set` on an absent key appends the binding. -/
theorem mapSet_append (m : List (String × TaskResult)) (k : String)
    (v : TaskResult) (h : ∀ p ∈ m, p.1 ≠ k) :
    mapSet m k v = m ++ [(k, v)] := by
  unfold mapSet
  rw [if_neg]
  simp only [List.any_eq_true, beq_iff_eq, not_exists, not_and]
  intro p hp
  exact h p hp

/-- Branch equation: empty wave. -/
theorem execWave_nil {oracle : Oracle} {st : EngineState} :
    execWave oracle [] st = .ok st := rfl

/-- Branch equation: first task of the wave completes normally. -/
theorem execWave_cons_ok {oracle : Oracle} {task : TaskDefinition}
    {ts : List TaskDefinition} {st st1 : EngineState}
    (h : executeTask oracle task st = .ok st1) :
    execWave oracle (task :: ts) st = execWave oracle ts st1 := by
  simp [execWave, h]

/-- Branch equation: first task of the wave throws. -/
theorem execWave_cons_err {oracle : Oracle} {task : TaskDefinition}
    {ts : List TaskDefinition} {st : EngineState}
    {e : WError × EngineState}
    (h : executeTask oracle task st = .error e) :
    execWave oracle (task :: ts) st = .error e := by
  simp [execWave, h]

/-- One dispatched task with a valid configuration preserves the engine
invariant, completes exactly its own id, appends exactly one result,
and appends a dispatch-log entry for itself. -/
theorem executeTask_inv (oracle : Oracle) (w : List TaskDefinition)
    (task : TaskDefinition) (st : EngineState) (rr : RetryResult)
    (hnodup : (taskIds w).Nodup) (htask : task ∈ w)
    (hdeps : ∀ d ∈ task.dependencies.getD [], d ∈ st.tracker.completed)
    (hnc : task.id ∉ st.tracker.completed)
    (hinv : EngineInv w st)
    (hexec : executeWithRetry oracle task = .ok rr) :
    ∃ st', executeTask oracle task st = .ok st' ∧
      EngineInv w st' ∧
      st'.tracker.completed = insert task.id st.tracker.completed ∧
      st'.results.length = st.results.length + 1 ∧
      (∀ e ∈ st.log, e ∈ st'.log) ∧
      (∃ e ∈ st'.log, e.taskId = task.id) := by
  obtain ⟨hprog, hcomp, hnd, horig, herr, hlog⟩ := hinv
  have hkeys : ∀ p ∈ st.results, p.1 ≠ task.id := by
    intro p hp hpe
    apply hnc
    rw [hcomp, List.mem_toFinset]
    rw [← hpe]
    exact List.mem_map_of_mem Prod.fst hp
  have hmap := mapSet_append st.results task.id rr.result hkeys
  have hidkeys : task.id ∉ st.results.map Prod.fst := by
    intro hmem
    apply hnc
    rw [hcomp, List.mem_toFinset]
    exact hmem
  refine ⟨_, executeTask_ok_of oracle task st rr hexec, ?_, ?_, ?_, ?_, ?_⟩
  · refine ⟨?_, ?_, ?_, ?_, ?_, ?_⟩
    · -- in-progress set returns to empty
      show ((st.tracker.markInProgress task.id).markCompleted task.id).inProgress = ∅
      simp [TaskStateTracker.markInProgress, TaskStateTracker.markCompleted,
        hprog]
    · -- completed set equals the new result keys
      show ((st.tracker.markInProgress task.id).markCompleted task.id).completed
        = ((mapSet st.results task.id rr.result).map Prod.fst).toFinset
      rw [hmap]
      simp only [TaskStateTracker.markInProgress, TaskStateTracker.markCompleted,
        List.map_append, List.toFinset_append]
      rw [hcomp]
      ext x
      simp
      tauto
    · -- new result keys are duplicate-free
      rw [hmap]
      simp only [List.map_append]
      rw [List.nodup_append]
      refine ⟨hnd, by simp, ?_⟩
      intro x hx
      simp only [List.map_cons, List.map_nil, List.mem_cons,
        List.not_mem_nil, or_false]
      intro he
      subst he
      exact hidkeys hx
    · -- every result belongs to a validated-config task of the workflow
      rw [hmap]
      intro p hp
      rcases List.mem_append.mp hp with hp1 | hp2
      · exact horig p hp1
      · simp at hp2
        subst hp2
        exact ⟨task, htask, rfl, executeWithRetry_ok_valid oracle task rr hexec⟩
    · -- errors stay task-level
      by_cases hs : rr.success = true
      · simp only [hs, if_true]
        exact herr
      · simp only [Bool.not_eq_true] at hs
        simp only [hs, Bool.false_eq_true, if_false]
        intro e he
        rcases List.mem_append.mp he with h1 | h2
        · exact herr e h1
        · simp at h2
          exact ⟨_, h2⟩
    · -- log entries stay good
      intro e he
      rcases List.mem_append.mp he with h1 | h2
      · exact hlog e h1
      · simp at h2
        subst h2
        constructor
        · intro t' ht' hid d hd
          have : t' = task :=
            List.inj_on_of_nodup_map hnodup ht' htask hid
          subst this
          exact hdeps d hd
        · exact hcomp
  · rfl
  · rw [hmap]
    simp
  · intro e he
    exact List.mem_append.mpr (Or.inl he)
  · refine ⟨{ taskId := task.id
              completedAtDispatch := st.tracker.completed
              resultKeysAtDispatch := st.results.map Prod.fst }, ?_, rfl⟩
    exact List.mem_append.mpr (Or.inr (by simp))

/-- A wave that completes normally preserves the invariant, completes
exactly the wave's ids, appends one result per wave task, and logs a
dispatch for each wave task. -/
theorem execWave_inv (oracle : Oracle) (w : List TaskDefinition)
    (hnodup : (taskIds w).Nodup) :
    ∀ (ts : List TaskDefinition) (st st' : EngineState),
      execWave oracle ts st = .ok st' →
      (∀ t ∈ ts, t ∈ w) →
      (∀ t ∈ ts, ∀ d ∈ t.dependencies.getD [], d ∈ st.tracker.completed) →
      (∀ t ∈ ts, t.id ∉ st.tracker.completed) →
      (ts.map (·.id)).Nodup →
      EngineInv w st →
      EngineInv w st' ∧
      st'.tracker.completed =
        st.tracker.completed ∪ (ts.map (·.id)).toFinset ∧
      st'.results.length = st.results.length + ts.length ∧
      (∀ e ∈ st.log, e ∈ st'.log) ∧
      (∀ t ∈ ts, ∃ e ∈ st'.log, e.taskId = t.id) := by
  intro ts
  induction ts with
  | nil =>
      intro st st' h _ _ _ _ hinv
      rw [execWave_nil] at h
      cases h
      exact ⟨hinv, by simp, by simp, fun e he => he, by simp⟩
  | cons task ts ih =>
      intro st st' h hmem hdeps hnc hndts hinv
      cases hexec : executeWithRetry oracle task with
      | error msg =>
          rw [execWave_cons_err (executeTask_err_of oracle task st msg hexec)] at h
          cases h
      | ok rr =>
          obtain ⟨st1, hst1, hinv1, hcomp1, hlen1, hlmono1, hentry1⟩ :=
            executeTask_inv oracle w task st rr hnodup
              (hmem task (List.mem_cons_self task ts))
              (hdeps task (List.mem_cons_self task ts))
              (hnc task (List.mem_cons_self task ts)) hinv hexec
          rw [execWave_cons_ok hst1] at h
          have hndcons : task.id ∉ ts.map (fun x => x.id) ∧
              (ts.map (fun x => x.id)).Nodup := by
            rw [List.map_cons] at hndts
            exact List.nodup_cons.mp hndts
          obtain ⟨hinv2, hcomp2, hlen2, hlmono2, hentry2⟩ :=
            ih st1 st' h (fun t ht => hmem t (List.mem_cons_of_mem _ ht))
              (fun t ht d hd => by
                rw [hcomp1]
                exact Finset.mem_insert_of_mem
                  (hdeps t (List.mem_cons_of_mem _ ht) d hd))
              (fun t ht => by
                rw [hcomp1]
                intro hmem2
                rcases Finset.mem_insert.mp hmem2 with heq | hmem3
                · exact hndcons.1 (by
                    rw [← heq]
                    exact List.mem_map_of_mem _ ht)
                · exact hnc t (List.mem_cons_of_mem _ ht) hmem3)
              hndcons.2 hinv1
          refine ⟨hinv2, ?_, ?_, ?_, ?_⟩
          · rw [hcomp2, hcomp1]
            ext x
            simp only [Finset.mem_union, Finset.mem_insert, List.map_cons,
              List.toFinset_cons, List.mem_toFinset]
            tauto
          · simp only [List.length_cons]
            omega
          · exact fun e he => hlmono2 e (hlmono1 e he)
          · intro t ht
            rcases List.mem_cons.mp ht with rfl | ht2
            · obtain ⟨e, he, heq⟩ := hentry1
              exact ⟨e, hlmono2 e he, heq⟩
            · exact hentry2 t ht2

/-- A wave that aborts does so with a configuration error, and the
result map it hands the engine's catch still only holds results of
validated-config tasks. -/
theorem execWave_err_shape (oracle : Oracle) (w : List TaskDefinition)
    (hnodup : (taskIds w).Nodup) :
    ∀ (ts : List TaskDefinition) (st : EngineState) (e : WError)
      (st'' : EngineState),
      execWave oracle ts st = .error (e, st'') →
      (∀ t ∈ ts, t ∈ w) →
      (∀ t ∈ ts, ∀ d ∈ t.dependencies.getD [], d ∈ st.tracker.completed) →
      (∀ t ∈ ts, t.id ∉ st.tracker.completed) →
      (ts.map (·.id)).Nodup →
      EngineInv w st →
      (∃ m, e = WError.config m) ∧
      (∀ p ∈ st''.results, ∃ t ∈ w, t.id = p.1 ∧
        validateRetryConfig (createRetryConfig t) = none) := by
  intro ts
  induction ts with
  | nil =>
      intro st e st'' h _ _ _ _ _
      rw [execWave_nil] at h
      cases h
  | cons task ts ih =>
      intro st e st'' h hmem hdeps hnc hndts hinv
      cases hexec : executeWithRetry oracle task with
      | error msg =>
          rw [execWave_cons_err (executeTask_err_of oracle task st msg hexec)] at h
          cases h
          exact ⟨⟨msg, rfl⟩, hinv.2.2.2.1⟩
      | ok rr =>
          obtain ⟨st1, hst1, hinv1, hcomp1, _, _, _⟩ :=
            executeTask_inv oracle w task st rr hnodup
              (hmem task (List.mem_cons_self task ts))
              (hdeps task (List.mem_cons_self task ts))
              (hnc task (List.mem_cons_self task ts)) hinv hexec
          rw [execWave_cons_ok hst1] at h
          have hndcons : task.id ∉ ts.map (fun x => x.id) ∧
              (ts.map (fun x => x.id)).Nodup := by
            rw [List.map_cons] at hndts
            exact List.nodup_cons.mp hndts
          exact ih st1 e st'' h
            (fun t ht => hmem t (List.mem_cons_of_mem _ ht))
            (fun t ht d hd => by
              rw [hcomp1]
              exact Finset.mem_insert_of_mem
                (hdeps t (List.mem_cons_of_mem _ ht) d hd))
            (fun t ht => by
              rw [hcomp1]
              intro hmem2
              rcases Finset.mem_insert.mp hmem2 with heq | hmem3
              · exact hndcons.1 (by
                  rw [← heq]
                  exact List.mem_map_of_mem _ ht)
              · exact hnc t (List.mem_cons_of_mem _ ht) hmem3)
            hndcons.2 hinv1

/-- Under unique ids, the task with a given id is found exactly. -/
theorem find?_task_of_nodup (w : List TaskDefinition)
    (hnodup : (taskIds w).Nodup) (t : TaskDefinition) (ht : t ∈ w) :
    w.find? (fun u => u.id == t.id) = some t := by
  cases hf : w.find? (fun u => u.id == t.id) with
  | none =>
      exfalso
      have := List.find?_eq_none.mp hf t ht
      simp at this
  | some t' =>
      have ht' := List.mem_of_find?_eq_some hf
      have hpred : t'.id = t.id := by simpa using List.find?_some hf
      rw [List.inj_on_of_nodup_map hnodup ht' ht hpred]

/-- The invariant places the completed set inside the task-id set. -/
theorem inv_completed_subset (w : List TaskDefinition) (st : EngineState)
    (hinv : EngineInv w st) :
    st.tracker.completed ⊆ (taskIds w).toFinset := by
  rw [hinv.2.1]
  intro x hx
  rw [List.mem_toFinset] at hx ⊢
  obtain ⟨p, hp, rfl⟩ := List.mem_map.mp hx
  obtain ⟨t, ht, htid, _⟩ := hinv.2.2.2.1 p hp
  rw [← htid]
  simp only [taskIds, List.mem_map]
  exact ⟨t, ht, rfl⟩

/-- Progress: for a duplicate-free, referentially-intact, acyclic task
list, whenever the tracker (with nothing in flight) has not completed
every task, the ready set is non-empty — the deadlock branch cannot
trigger. -/
theorem exists_ready (w : List TaskDefinition)
    (hnodup : (taskIds w).Nodup) (hde : DepsExist w)
    (hacyc : ¬ HasEdgeCycle w) (tr : TaskStateTracker)
    (hprog : tr.inProgress = ∅)
    (hsub : tr.completed ⊆ (taskIds w).toFinset)
    (hne : tr.completed.card ≠ w.length) :
    tr.getPending w ≠ [] := by
  intro hempty
  have hidcard : (taskIds w).toFinset.card = w.length := by
    rw [List.toFinset_card_of_nodup hnodup]
    simp [taskIds]
  have hBne : ((taskIds w).toFinset \ tr.completed).Nonempty := by
    rw [← Finset.card_pos, Finset.card_sdiff hsub]
    have := Finset.card_le_card hsub
    omega
  have hnoready : ∀ t ∈ w, ¬ tr.isReady t = true := by
    intro t ht hr
    have : t ∈ tr.getPending w := (mem_getPending tr w t).mpr ⟨ht, hr⟩
    rw [hempty] at this
    exact List.not_mem_nil t this
  have hstep : ∀ x ∈ (taskIds w).toFinset \ tr.completed,
      (fun y => ((wdeps w y).find?
        (fun d => decide (d ∉ tr.completed))).getD y) x ∈
          (taskIds w).toFinset \ tr.completed ∧
      Edge w x ((fun y => ((wdeps w y).find?
        (fun d => decide (d ∉ tr.completed))).getD y) x) := by
    intro x hx
    rw [Finset.mem_sdiff, List.mem_toFinset] at hx
    obtain ⟨hxid, hxnc⟩ := hx
    simp only [taskIds, List.mem_map] at hxid
    obtain ⟨t, ht, rfl⟩ := hxid
    have hwd : wdeps w t.id = t.dependencies.getD [] := by
      unfold wdeps
      rw [find?_task_of_nodup w hnodup t ht]
    have hbad : ∃ d ∈ t.dependencies.getD [], d ∉ tr.completed := by
      by_contra hall
      push_neg at hall
      exact hnoready t ht ((isReady_iff tr t).mpr
        ⟨hxnc, by rw [hprog]; exact Finset.not_mem_empty _, hall⟩)
    have hsome : ((wdeps w t.id).find?
        (fun d => decide (d ∉ tr.completed))).isSome := by
      rw [List.find?_isSome]
      obtain ⟨d, hd, hdc⟩ := hbad
      exact ⟨d, by rw [hwd]; exact hd, by simpa using hdc⟩
    obtain ⟨d, hfd⟩ := Option.isSome_iff_exists.mp hsome
    have hdmem : d ∈ wdeps w t.id := List.mem_of_find?_eq_some hfd
    have hdnc : d ∉ tr.completed := by simpa using List.find?_some hfd
    have hdid : d ∈ taskIds w := wdeps_subset w hde t.id d hdmem
    simp only [hfd, Option.getD_some]
    refine ⟨?_, hdmem⟩
    rw [Finset.mem_sdiff, List.mem_toFinset]
    exact ⟨hdid, hdnc⟩
  obtain ⟨x0, hx0⟩ := hBne
  set f : String → String := fun y =>
    ((wdeps w y).find? (fun d => decide (d ∉ tr.completed))).getD y with hf
  have hiter : ∀ n, f^[n] x0 ∈ (taskIds w).toFinset \ tr.completed := by
    intro n
    induction n with
    | zero => simpa using hx0
    | succ n ihn =>
        rw [Function.iterate_succ_apply']
        exact (hstep _ ihn).1
  obtain ⟨i, hi, j, hj, hij, heq⟩ :=
    Finset.exists_ne_map_eq_of_card_lt_of_maps_to
      (by simp : (((taskIds w).toFinset \ tr.completed)).card <
        (Finset.range (((taskIds w).toFinset \ tr.completed).card + 1)).card)
      (fun i _ => hiter i)
  have hpath : ∀ a b : Nat, a < b →
      Relation.TransGen (Edge w) (f^[a] x0) (f^[b] x0) := by
    intro a b hab
    induction b with
    | zero => omega
    | succ b ihb =>
        have hedge : Edge w (f^[b] x0) (f^[b + 1] x0) := by
          rw [Function.iterate_succ_apply']
          exact (hstep _ (hiter b)).2
        rcases Nat.lt_succ_iff_lt_or_eq.mp hab with h1 | h1
        · exact Relation.TransGen.tail (ihb h1) hedge
        · subst h1
          exact Relation.TransGen.single hedge
  rcases Nat.lt_or_ge i j with hlt | hge
  · have hp := hpath i j hlt
    rw [← heq] at hp
    exact hacyc ⟨_, hp⟩
  · have hgt : j < i := by omega
    have hp := hpath j i hgt
    rw [heq] at hp
    exact hacyc ⟨_, hp⟩

/-- Branch equation: the loop runs out of fuel (model artifact). -/
theorem execLoop_zero {oracle : Oracle} {w : List TaskDefinition}
    {st : EngineState} : execLoop oracle w 0 st = none := rfl

/-- Branch equation: every task completed. -/
theorem execLoop_succ_done {oracle : Oracle} {w : List TaskDefinition}
    {fuel : Nat} {st : EngineState}
    (h : st.tracker.isAllCompleted w.length = true) :
    execLoop oracle w (fuel + 1) st = some (.ok st) := by
  simp [execLoop, h]

/-- Branch equation: tasks remain, none ready — the deadlock error. -/
theorem execLoop_succ_deadlock {oracle : Oracle} {w : List TaskDefinition}
    {fuel : Nat} {st : EngineState}
    (h1 : st.tracker.isAllCompleted w.length = false)
    (h2 : (st.tracker.getPending w).isEmpty = true)
    (h3 : 0 < (st.tracker.getRemaining w).length) :
    execLoop oracle w (fuel + 1) st =
      some (.error (.deadlock (taskIds (st.tracker.getRemaining w)), st)) := by
  simp [execLoop, h1, h2, h3]

/-- Branch equation: the wave throws. -/
theorem execLoop_succ_wave_err {oracle : Oracle} {w : List TaskDefinition}
    {fuel : Nat} {st : EngineState} {e : WError × EngineState}
    (h1 : st.tracker.isAllCompleted w.length = false)
    (h2 : (st.tracker.getPending w).isEmpty = false)
    (hw : execWave oracle (st.tracker.getPending w) st = .error e) :
    execLoop oracle w (fuel + 1) st = some (.error e) := by
  simp [execLoop, h1, h2, hw]

/-- Branch equation: the wave completes and the loop continues. -/
theorem execLoop_succ_wave_ok {oracle : Oracle} {w : List TaskDefinition}
    {fuel : Nat} {st st1 : EngineState}
    (h1 : st.tracker.isAllCompleted w.length = false)
    (h2 : (st.tracker.getPending w).isEmpty = false)
    (hw : execWave oracle (st.tracker.getPending w) st = .ok st1) :
    execLoop oracle w (fuel + 1) st = execLoop oracle w fuel st1 := by
  simp [execLoop, h1, h2, hw]

/-- A wave of tasks with valid configurations never throws. -/
theorem execWave_total (oracle : Oracle) :
    ∀ (ts : List TaskDefinition) (st : EngineState),
      (∀ t ∈ ts, validateRetryConfig (createRetryConfig t) = none) →
      ∃ st', execWave oracle ts st = .ok st' := by
  intro ts
  induction ts with
  | nil => intro st _; exact ⟨st, rfl⟩
  | cons task ts ih =>
      intro st hcfg
      have hexec := executeWithRetry_valid oracle task
        (hcfg task (List.mem_cons_self task ts))
      rw [execWave_cons_ok (executeTask_ok_of oracle task st _ hexec)]
      exact ih _ (fun t ht => hcfg t (List.mem_cons_of_mem _ ht))

/-- Facts about the ready set at a loop head. -/
theorem ready_facts (w : List TaskDefinition) (hnodup : (taskIds w).Nodup)
    (st : EngineState) :
    (∀ t ∈ st.tracker.getPending w, t ∈ w) ∧
    (∀ t ∈ st.tracker.getPending w,
      ∀ d ∈ t.dependencies.getD [], d ∈ st.tracker.completed) ∧
    (∀ t ∈ st.tracker.getPending w, t.id ∉ st.tracker.completed) ∧
    ((st.tracker.getPending w).map (fun x => x.id)).Nodup := by
  refine ⟨?_, ?_, ?_, ?_⟩
  · intro t ht
    exact ((mem_getPending _ w t).mp ht).1
  · intro t ht d hd
    exact ((isReady_iff _ t).mp ((mem_getPending _ w t).mp ht).2).2.2 d hd
  · intro t ht
    exact ((isReady_iff _ t).mp ((mem_getPending _ w t).mp ht).2).1
  · have hsl : List.Sublist (st.tracker.getPending w) w := List.filter_sublist w
    exact List.Nodup.sublist (List.Sublist.map _ hsl) hnodup

/-- Main loop run: with validated structure, acyclic graph, valid
configurations and enough fuel, the loop completes every task,
preserves the invariant, and logs a dispatch for every task not
already completed. -/
theorem execLoop_main (oracle : Oracle) (w : List TaskDefinition)
    (hnodup : (taskIds w).Nodup) (hde : DepsExist w)
    (hacyc : ¬ HasEdgeCycle w) (hcfg : ValidConfigs w) :
    ∀ fuel (st : EngineState), EngineInv w st →
      w.length + 1 ≤ fuel + st.tracker.completed.card →
      ∃ st', execLoop oracle w fuel st = some (.ok st') ∧
        EngineInv w st' ∧
        st'.tracker.completed = (taskIds w).toFinset ∧
        (∀ e ∈ st.log, e ∈ st'.log) ∧
        (∀ t ∈ w, t.id ∉ st.tracker.completed →
          ∃ e ∈ st'.log, e.taskId = t.id) := by
  have hidcard : (taskIds w).toFinset.card = w.length := by
    rw [List.toFinset_card_of_nodup hnodup]
    simp [taskIds]
  intro fuel
  induction fuel with
  | zero =>
      intro st hinv hfuel
      exfalso
      have := Finset.card_le_card (inv_completed_subset w st hinv)
      omega
  | succ n ih =>
      intro st hinv hfuel
      by_cases hdone : st.tracker.isAllCompleted w.length = true
      · have hcard : st.tracker.completed.card = w.length :=
          (isAllCompleted_iff _ _).mp hdone
        have hfull : st.tracker.completed = (taskIds w).toFinset :=
          Finset.eq_of_subset_of_card_le (inv_completed_subset w st hinv)
            (by omega)
        refine ⟨st, execLoop_succ_done hdone, hinv, hfull, fun e he => he, ?_⟩
        intro t ht hnc
        exfalso
        apply hnc
        rw [hfull, List.mem_toFinset]
        simp only [taskIds, List.mem_map]
        exact ⟨t, ht, rfl⟩
      · have hdonef : st.tracker.isAllCompleted w.length = false := by
          cases hb : st.tracker.isAllCompleted w.length
          · rfl
          · exact absurd hb hdone
        have hne : st.tracker.completed.card ≠ w.length :=
          fun hc => hdone ((isAllCompleted_iff _ _).mpr hc)
        have hready := exists_ready w hnodup hde hacyc st.tracker hinv.1
          (inv_completed_subset w st hinv) hne
        have hemptyf : (st.tracker.getPending w).isEmpty = false := by
          cases hb : (st.tracker.getPending w).isEmpty
          · rfl
          · exact absurd (List.isEmpty_iff.mp hb) hready
        obtain ⟨hrmem, hrdeps, hrnc, hrnodup⟩ := ready_facts w hnodup st
        obtain ⟨st1, hw⟩ := execWave_total oracle (st.tracker.getPending w) st
          (fun t ht => hcfg t (hrmem t ht))
        obtain ⟨hinv1, hcomp1, hlen1, hlmono1, hentry1⟩ :=
          execWave_inv oracle w hnodup _ st st1 hw hrmem hrdeps hrnc hrnodup hinv
        have hdisj : Disjoint st.tracker.completed
            (((st.tracker.getPending w).map (fun x => x.id)).toFinset) := by
          rw [Finset.disjoint_right]
          intro a ha
          rw [List.mem_toFinset] at ha
          obtain ⟨t, ht, rfl⟩ := List.mem_map.mp ha
          exact hrnc t ht
        have hcard1 : st1.tracker.completed.card =
            st.tracker.completed.card +
            (((st.tracker.getPending w).map (fun x => x.id)).toFinset).card := by
          rw [hcomp1]
          exact Finset.card_union_of_disjoint hdisj
        have hpos : 0 <
            (((st.tracker.getPending w).map (fun x => x.id)).toFinset).card := by
          rw [Finset.card_pos]
          obtain ⟨t, ht⟩ := List.exists_mem_of_ne_nil _ hready
          exact ⟨t.id, by
            rw [List.mem_toFinset]
            exact List.mem_map_of_mem _ ht⟩
        obtain ⟨st', hloop, hinv', hfull, hlmono2, hentry2⟩ :=
          ih st1 hinv1 (by omega)
        refine ⟨st', ?_, hinv', hfull,
          fun e he => hlmono2 e (hlmono1 e he), ?_⟩
        · rw [execLoop_succ_wave_ok hdonef hemptyf hw]
          exact hloop
        · intro t ht hnc
          by_cases hrdy : t ∈ st.tracker.getPending w
          · obtain ⟨e, he, heq⟩ := hentry1 t hrdy
            exact ⟨e, hlmono2 e he, heq⟩
          · apply hentry2 t ht
            rw [hcomp1]
            intro hmem
            rcases Finset.mem_union.mp hmem with h1 | h1
            · exact hnc h1
            · rw [List.mem_toFinset] at h1
              obtain ⟨t2, ht2, heq2⟩ := List.mem_map.mp h1
              have ht2t : t2 = t :=
                List.inj_on_of_nodup_map hnodup (hrmem t2 ht2) ht heq2
              subst ht2t
              exact hrdy ht2

/-- Shape of any loop outcome for a validated workflow: an error escape
is a configuration error whose carried result map holds only
validated-config tasks' results, and a normal finish has only
task-level errors, the result map likewise. -/
theorem execLoop_shape (oracle : Oracle) (w : List TaskDefinition)
    (hnodup : (taskIds w).Nodup) (hde : DepsExist w)
    (hacyc : ¬ HasEdgeCycle w) :
    ∀ fuel (st : EngineState) (r : Except (WError × EngineState) EngineState),
      EngineInv w st → execLoop oracle w fuel st = some r →
      (∀ e st'', r = .error (e, st'') →
        (∃ m, e = WError.config m) ∧
        (∀ p ∈ st''.results, ∃ t ∈ w, t.id = p.1 ∧
          validateRetryConfig (createRetryConfig t) = none)) ∧
      (∀ st'', r = .ok st'' →
        (∀ e ∈ st''.errors, ∃ m, e = WError.task m) ∧
        (∀ p ∈ st''.results, ∃ t ∈ w, t.id = p.1 ∧
          validateRetryConfig (createRetryConfig t) = none)) := by
  intro fuel
  induction fuel with
  | zero =>
      intro st r _ hrun
      rw [execLoop_zero] at hrun
      cases hrun
  | succ n ih =>
      intro st r hinv hrun
      by_cases hdone : st.tracker.isAllCompleted w.length = true
      · rw [execLoop_succ_done hdone] at hrun
        cases hrun
        refine ⟨fun e st'' hcontra => (by cases hcontra), fun st'' heq => ?_⟩
        cases heq
        exact ⟨hinv.2.2.2.2.1, hinv.2.2.2.1⟩
      · have hdonef : st.tracker.isAllCompleted w.length = false := by
          cases hb : st.tracker.isAllCompleted w.length
          · rfl
          · exact absurd hb hdone
        have hne : st.tracker.completed.card ≠ w.length :=
          fun hc => hdone ((isAllCompleted_iff _ _).mpr hc)
        have hready := exists_ready w hnodup hde hacyc st.tracker hinv.1
          (inv_completed_subset w st hinv) hne
        have hemptyf : (st.tracker.getPending w).isEmpty = false := by
          cases hb : (st.tracker.getPending w).isEmpty
          · rfl
          · exact absurd (List.isEmpty_iff.mp hb) hready
        obtain ⟨hrmem, hrdeps, hrnc, hrnodup⟩ := ready_facts w hnodup st
        cases hw : execWave oracle (st.tracker.getPending w) st with
        | error p =>
            obtain ⟨e2, st2⟩ := p
            rw [execLoop_succ_wave_err hdonef hemptyf hw] at hrun
            cases hrun
            obtain ⟨hshape, hres⟩ := execWave_err_shape oracle w hnodup _
              st e2 st2 hw hrmem hrdeps hrnc hrnodup hinv
            refine ⟨fun e st'' heq => ?_, fun st'' heq => by cases heq⟩
            cases heq
            exact ⟨hshape, hres⟩
        | ok st1 =>
            rw [execLoop_succ_wave_ok hdonef hemptyf hw] at hrun
            obtain ⟨hinv1, _, _, _, _⟩ :=
              execWave_inv oracle w hnodup _ st st1 hw hrmem hrdeps hrnc
                hrnodup hinv
            exact ih st1 r hinv1 hrun

/-- Branch equation: validation failure short-circuits the run. -/
theorem run_validation_err {oracle : Oracle} {w : List TaskDefinition}
    {fuel : Nat} {msg : String} (hval : validateWorkflow w = some msg) :
    run oracle w fuel =
      some { success := false, results := [], errors := [.validation msg] } := by
  simp [run, hval]

/-- Branch equation: fuel exhaustion (model artifact). -/
theorem run_of_execLoop_none {oracle : Oracle} {w : List TaskDefinition}
    {fuel : Nat} (hval : validateWorkflow w = none)
    (hl : execLoop oracle w fuel initState = none) :
    run oracle w fuel = none := by
  simp [run, hval, hl]

/-- Branch equation: an error escaping the loop is caught by `run`. -/
theorem run_of_execLoop_err {oracle : Oracle} {w : List TaskDefinition}
    {fuel : Nat} {e : WError} {st : EngineState}
    (hval : validateWorkflow w = none)
    (hl : execLoop oracle w fuel initState = some (.error (e, st))) :
    run oracle w fuel =
      some { success := false, results := st.results, errors := [e] } := by
  simp [run, hval, hl]

/-- Branch equation: a normal loop finish. -/
theorem run_of_execLoop_ok {oracle : Oracle} {w : List TaskDefinition}
    {fuel : Nat} {st : EngineState}
    (hval : validateWorkflow w = none)
    (hl : execLoop oracle w fuel initState = some (.ok st)) :
    run oracle w fuel =
      some { success := st.errors.isEmpty, results := st.results
             errors := st.errors } := by
  simp [run, hval, hl]

/-- The initial engine state satisfies the loop invariant. -/
theorem engineInv_init (w : List TaskDefinition) : EngineInv w initState := by
  refine ⟨rfl, ?_, ?_, ?_, ?_, ?_⟩ <;>
    simp [initState, TaskStateTracker.empty]

/-- A passing `validateWorkflow` means all three checks passed. -/
theorem validateWorkflow_none_parts (w : List TaskDefinition)
    (h : validateWorkflow w = none) :
    validateTaskIds w = none ∧ validateDependencies w = none ∧
    validateCircularDependencies w = none := by
  unfold validateWorkflow at h
  cases h1 : validateTaskIds w with
  | some e => rw [h1] at h; cases h
  | none =>
      rw [h1] at h
      cases h2 : validateDependencies w with
      | some e => rw [h2] at h; cases h
      | none =>
          rw [h2] at h
          exact ⟨rfl, rfl, h⟩

/-- A passing cycle check means the walked graph is acyclic. -/
theorem no_edge_cycle_of_vcd_none (w : List TaskDefinition)
    (hv : validateCircularDependencies w = none) : ¬ HasEdgeCycle w := by
  intro hcyc
  obtain ⟨V, hnV, _, hall⟩ := vcdGo_none w w [] hv
    (fun a ha => absurd ha (List.not_mem_nil a))
    (fun a ha => absurd ha (List.not_mem_nil a))
  obtain ⟨a, hcyca⟩ := hcyc
  have ha : a ∈ taskIds w := by
    obtain ⟨b, hab, _⟩ := Relation.TransGen.head'_iff.mp hcyca
    exact edge_src_mem w hab
  simp only [taskIds, List.mem_map] at ha
  obtain ⟨t, ht, rfl⟩ := ha
  exact hnV t.id (hall t ht) (List.not_mem_nil _) hcyca

/-- C3.  For every workflow that passes `validateWorkflow`, `run` never
returns a deadlock error: at every loop head with incomplete tasks the
ready set is non-empty (`exists_ready`), so the deadlock branch is
unreachable and every reported error is a task or configuration
error. -/
theorem c3_no_deadlock (w : List TaskDefinition)
    (hval : validateWorkflow w = none) (oracle : Oracle) (fuel : Nat)
    (res : WorkflowResult) (hrun : run oracle w fuel = some res) :
    ∀ e ∈ res.errors, ∀ ids, e ≠ WError.deadlock ids := by
  obtain ⟨h1, h2, h3⟩ := validateWorkflow_none_parts w hval
  have hnodup := (validateTaskIds_eq_none w).mp h1
  have hde := (validateDependencies_eq_none w).mp h2
  have hacyc := no_edge_cycle_of_vcd_none w h3
  cases hl : execLoop oracle w fuel initState with
  | none =>
      rw [run_of_execLoop_none hval hl] at hrun
      cases hrun
  | some r =>
      have hshape := execLoop_shape oracle w hnodup hde hacyc fuel initState r
        (engineInv_init w) hl
      cases r with
      | error p =>
          obtain ⟨e2, st2⟩ := p
          rw [run_of_execLoop_err hval hl] at hrun
          cases hrun
          intro e he ids heq
          simp only [List.mem_singleton] at he
          obtain ⟨m, hm⟩ := (hshape.1 e2 st2 rfl).1
          subst he
          rw [hm] at heq
          cases heq
      | ok st2 =>
          rw [run_of_execLoop_ok hval hl] at hrun
          cases hrun
          intro e he ids heq
          obtain ⟨m, hm⟩ := (hshape.2 st2 rfl).1 e he
          rw [hm] at heq
          cases heq

/-- C3 witness: a validated single-task workflow whose run aborts with
a configuration error still reports no deadlock error. -/
theorem c3_witness :
    WError.config "maxRetries must be a non-negative integer" ≠
      WError.deadlock ["a"] :=
  c3_no_deadlock [{ id := "a", retries := some (-1) }] (by decide)
    (fun _ _ => .ok "x") 2
    { success := false, results := []
      errors := [.config "maxRetries must be a non-negative integer"] }
    (by decide) (WError.config "maxRetries must be a non-negative integer")
    (by decide) ["a"]

/-- C1 counterexample: the workflow `[a (retries = -1), b]` passes
`validateWorkflow`, yet the configuration error detected for `a` is not
treated as a task-local failure: the run aborts as a whole with that
error as its only entry, the independent task `b` gets no entry in the
result map, and neither does `a`. -/
theorem c1_counterexample :
    validateWorkflow
      [{ id := "a", retries := some (-1) }, { id := "b" }] = none ∧
    run (fun _ _ => .ok "x")
      [{ id := "a", retries := some (-1) }, { id := "b" }] 3 =
      some { success := false, results := []
             errors := [.config "maxRetries must be a non-negative integer"] } := by
  constructor
  · decide
  · decide

/-- C1 amended: the invalid configuration is detected before the task's
first attempt (the retry handler fails without consulting the handler
at all), but the thrown error is not local to the task: it propagates
out of the retry handler and aborts the whole run, which reports
`success = false` with the configuration error as its sole error entry,
and the result map holds entries only for tasks with valid
configurations that finished before the abort. -/
theorem c1_config_error_aborts_run (oracle : Oracle)
    (w : List TaskDefinition) (fuel : Nat) (res : WorkflowResult)
    (m : String) (hval : validateWorkflow w = none)
    (hrun : run oracle w fuel = some res)
    (hmem : WError.config m ∈ res.errors) :
    res.errors = [WError.config m] ∧ res.success = false ∧
    (∀ p ∈ res.results, ∃ t ∈ w, t.id = p.1 ∧
      validateRetryConfig (createRetryConfig t) = none) ∧
    (∀ (oracle2 : Oracle) (task : TaskDefinition) (msg : String),
      validateRetryConfig (createRetryConfig task) = some msg →
      executeWithRetry oracle2 task = .error msg) := by
  obtain ⟨h1, h2, h3⟩ := validateWorkflow_none_parts w hval
  have hnodup := (validateTaskIds_eq_none w).mp h1
  have hde := (validateDependencies_eq_none w).mp h2
  have hacyc := no_edge_cycle_of_vcd_none w h3
  have hdet := fun (oracle2 : Oracle) task msg hv =>
    executeWithRetry_invalid oracle2 task msg hv
  cases hl : execLoop oracle w fuel initState with
  | none =>
      rw [run_of_execLoop_none hval hl] at hrun
      cases hrun
  | some r =>
      have hshape := execLoop_shape oracle w hnodup hde hacyc fuel initState r
        (engineInv_init w) hl
      cases r with
      | error p =>
          obtain ⟨e2, st2⟩ := p
          rw [run_of_execLoop_err hval hl] at hrun
          cases hrun
          simp only [List.mem_singleton] at hmem
          refine ⟨by rw [hmem], rfl, ?_, hdet⟩
          exact (hshape.1 e2 st2 rfl).2
      | ok st2 =>
          rw [run_of_execLoop_ok hval hl] at hrun
          cases hrun
          exfalso
          obtain ⟨m2, hm2⟩ := (hshape.2 st2 rfl).1 _ hmem
          cases hm2

/-- C1 witness: the amended statement at the counterexample input. -/
theorem c1_witness :
    ({ success := false, results := []
       errors := [.config "maxRetries must be a non-negative integer"] } :
       WorkflowResult).errors =
        [WError.config "maxRetries must be a non-negative integer"] ∧
    ({ success := false, results := []
       errors := [.config "maxRetries must be a non-negative integer"] } :
       WorkflowResult).success = false ∧
    (∀ p ∈ ({ success := false, results := []
              errors := [.config "maxRetries must be a non-negative integer"] } :
              WorkflowResult).results,
      ∃ t ∈ [{ id := "a", retries := some (-1) },
             ({ id := "b" } : TaskDefinition)], t.id = p.1 ∧
        validateRetryConfig (createRetryConfig t) = none) ∧
    (∀ (oracle2 : Oracle) (task : TaskDefinition) (msg : String),
      validateRetryConfig (createRetryConfig task) = some msg →
      executeWithRetry oracle2 task = .error msg) :=
  c1_config_error_aborts_run (fun _ _ => .ok "x")
    [{ id := "a", retries := some (-1) }, { id := "b" }] 3 _
    "maxRetries must be a non-negative integer" (by decide) (by decide)
    (by decide)

/-- C2 counterexample: the single-task workflow `[a (retries = -1)]`
passes `validateWorkflow`, yet `run` returns a result map with no entry
at all — not one entry per task. -/
theorem c2_counterexample :
    validateWorkflow [{ id := "a", retries := some (-1) }] = none ∧
    run (fun _ _ => .ok "x") [{ id := "a", retries := some (-1) }] 2 =
      some { success := false, results := []
             errors := [.config "maxRetries must be a non-negative integer"] } := by
  constructor
  · decide
  · decide

/-- C2 amended: for every task list that passes `validateWorkflow` and
whose tasks all have valid retry configurations, the wave loop
terminates within `length + 1` waves and the result map holds exactly
one entry per task: its keys are duplicate-free, every task id appears,
and there are as many entries as tasks. -/
theorem c2_run_completes_all (oracle : Oracle) (w : List TaskDefinition)
    (hval : validateWorkflow w = none) (hcfg : ValidConfigs w) :
    ∃ res, run oracle w (w.length + 1) = some res ∧
      (res.results.map Prod.fst).Nodup ∧
      (∀ t ∈ w, t.id ∈ res.results.map Prod.fst) ∧
      res.results.length = w.length := by
  obtain ⟨h1, h2, h3⟩ := validateWorkflow_none_parts w hval
  have hnodup := (validateTaskIds_eq_none w).mp h1
  have hde := (validateDependencies_eq_none w).mp h2
  have hacyc := no_edge_cycle_of_vcd_none w h3
  obtain ⟨st', hloop, hinv', hfull, _, _⟩ :=
    execLoop_main oracle w hnodup hde hacyc hcfg (w.length + 1) initState
      (engineInv_init w) (by simp [initState, TaskStateTracker.empty])
  refine ⟨_, run_of_execLoop_ok hval hloop, hinv'.2.2.1, ?_, ?_⟩
  · intro t ht
    have hmem : t.id ∈ (taskIds w).toFinset := by
      rw [List.mem_toFinset]
      simp only [taskIds, List.mem_map]
      exact ⟨t, ht, rfl⟩
    rw [← hfull, hinv'.2.1, List.mem_toFinset] at hmem
    exact hmem
  · have hc1 : (st'.results.map Prod.fst).toFinset.card =
        (st'.results.map Prod.fst).length :=
      List.toFinset_card_of_nodup hinv'.2.2.1
    have hc2 : (st'.results.map Prod.fst).toFinset = (taskIds w).toFinset := by
      rw [← hinv'.2.1, hfull]
    have hc3 : (taskIds w).toFinset.card = w.length := by
      rw [List.toFinset_card_of_nodup hnodup]
      simp [taskIds]
    have hc4 : (st'.results.map Prod.fst).length = st'.results.length :=
      List.length_map _ _
    have hc5 := congrArg Finset.card hc2
    simp only [WorkflowResult.results]
    omega

/-- C2 witness: the amended statement at a concrete two-task list. -/
theorem c2_witness :
    ∃ res, run (fun _ _ => .ok "x")
        [({ id := "a" } : TaskDefinition), { id := "b" }] 3 = some res ∧
      (res.results.map Prod.fst).Nodup ∧
      (∀ t ∈ [({ id := "a" } : TaskDefinition), { id := "b" }],
        t.id ∈ res.results.map Prod.fst) ∧
      res.results.length = 2 :=
  c2_run_completes_all (fun _ _ => .ok "x")
    [{ id := "a" }, { id := "b" }] (by decide)
    (by unfold ValidConfigs; decide)

/-- C4.  For every validated workflow with valid configurations: every
dispatch recorded by the scheduling loop is good — at the moment a task
is marked in-progress, each of its dependency ids is in the tracker's
completed set, and every completed id already has a recorded terminal
`TaskResult` (success or failure) — and every task is dispatched, so a
failed dependency does not prevent its dependent from starting. -/
theorem c4_deps_completed_at_dispatch (oracle : Oracle)
    (w : List TaskDefinition) (hval : validateWorkflow w = none)
    (hcfg : ValidConfigs w) :
    ∃ st, execLoop oracle w (w.length + 1) initState = some (.ok st) ∧
      (∀ e ∈ st.log, GoodEntry w e) ∧
      (∀ t ∈ w, ∃ e ∈ st.log, e.taskId = t.id) := by
  obtain ⟨h1, h2, h3⟩ := validateWorkflow_none_parts w hval
  have hnodup := (validateTaskIds_eq_none w).mp h1
  have hde := (validateDependencies_eq_none w).mp h2
  have hacyc := no_edge_cycle_of_vcd_none w h3
  obtain ⟨st', hloop, hinv', _, _, hentry⟩ :=
    execLoop_main oracle w hnodup hde hacyc hcfg (w.length + 1) initState
      (engineInv_init w) (by simp [initState, TaskStateTracker.empty])
  refine ⟨st', hloop, hinv'.2.2.2.2.2, ?_⟩
  intro t ht
  exact hentry t ht (by simp [initState, TaskStateTracker.empty])

/-- C4 witness: a two-task chain whose first task always fails is still
fully dispatched with good log entries. -/
theorem c4_witness :
    ∃ st, execLoop (fun tid _ => if tid = "a" then .err "boom" else .ok "x")
        [({ id := "a" } : TaskDefinition),
         { id := "b", dependencies := some ["a"] }] 3 initState =
        some (.ok st) ∧
      (∀ e ∈ st.log, GoodEntry
        [({ id := "a" } : TaskDefinition),
         { id := "b", dependencies := some ["a"] }] e) ∧
      (∀ t ∈ [({ id := "a" } : TaskDefinition),
              { id := "b", dependencies := some ["a"] }],
        ∃ e ∈ st.log, e.taskId = t.id) :=
  c4_deps_completed_at_dispatch
    (fun tid _ => if tid = "a" then .err "boom" else .ok "x")
    [{ id := "a" }, { id := "b", dependencies := some ["a"] }]
    (by decide) (by unfold ValidConfigs; decide)

end WorkflowSpec
